import Mathlib

namespace GxbCore

/-! ## Name codec (`libraries/chain/name.cpp`) -/

/-- The 32-symbol table `charmap` of `name::operator string`. -/
def charmap : List Char := ".12345abcdefghijklmnopqrstuvwxyz".toList

/-- Right trim: `boost::algorithm::trim_right_if(str, pred)` drops the longest
suffix of `str` all of whose characters satisfy `pred`. -/
def trim_right_if (pred : Char → Bool) (str : List Char) : List Char :=
  (str.reverse.dropWhile pred).reverse

/-- A `name` object: its only field is the packed `uint64_t value`. -/
structure name where
  value : Nat
deriving DecidableEq

/-- One pass of the loop body of `name::operator string` for loop counter `i`:
the state is `(tmp, str)`. -/
def to_string_step (st : Nat × List Char) (i : Nat) : Nat × List Char :=
  let c := charmap.getD (st.1 &&& (if i = 0 then 0x0f else 0x1f)) (Char.ofNat 0)
  (st.1 >>> (if i = 0 then 4 else 5), st.2.set (12 - i) c)

/-- The 13-character string `str` of `name::operator string` when the loop
`for (i = 0; i <= 12; ++i)` has finished, before trimming. -/
def to_string_untrimmed (value : Nat) : List Char :=
  ((List.range 13).foldl to_string_step (value, List.replicate 13 '.')).2

/-- The conversion `name::operator string` (also reached as `to_string()`). -/
def name.to_string (n : name) : List Char :=
  trim_right_if (fun c => c == '.') (to_string_untrimmed n.value)

/-- The C library function `strnlen(str, maxlen)` on the characters of a
NUL-terminated string. -/
def strnlen (str : List Char) (maxlen : Nat) : Nat := min str.length maxlen

/-- The two `GRAPHENE_ASSERT` sites of `name::set`; both raise the exception
type `name_type_exception`, and they differ in the message only. -/
inductive name_type_exception where
  | longer_than_13    -- "Name is longer than 13 characters"
  | not_normalized    -- "Name not properly normalized"
deriving DecidableEq

/-- What a call of `name::set` leaves behind: whether it raised, and the object
after the call. -/
structure set_result where
  raised : Option name_type_exception
  self : name
deriving DecidableEq

/-- The method `name::set(const char* str)`; `str` is the character sequence of
the C string and `pack` stands for the function `string_to_name` it calls (the
result is stored in the `uint64_t` field, hence reduced modulo `2^64`). -/
def name.set (pack : List Char → Nat) (self : name) (str : List Char) : set_result :=
  let len := strnlen str 14
  if len ≤ 13 then
    let self1 : name := { value := pack str % 2 ^ 64 }
    if self1.to_string = str then
      { raised := none, self := self1 }
    else
      { raised := some .not_normalized, self := self1 }
  else
    { raised := some .longer_than_13, self := self }

/-- Modelled from the spec: the symbol of a character, the inverse of `charmap`
(`char_to_symbol` of `name.hpp`, which is not among the sources); a character
outside the alphabet has symbol 0. -/
def char_to_symbol (c : Char) : Nat :=
  if 'a'.toNat ≤ c.toNat ∧ c.toNat ≤ 'z'.toNat then c.toNat - 'a'.toNat + 6
  else if '1'.toNat ≤ c.toNat ∧ c.toNat ≤ '5'.toNat then c.toNat - '1'.toNat + 1
  else 0

/-- Modelled from the spec: packing of the characters from position `i` on;
each of the first twelve characters fills a 5-bit group, the first one the
most significant, and the 13th character the remaining 4 bits. -/
def string_to_name_from : Nat → List Char → Nat
  | _, [] => 0
  | i, c :: cs =>
    if i < 12 then
      ((char_to_symbol c &&& 0x1f) <<< (64 - 5 * (i + 1))) ||| string_to_name_from (i + 1) cs
    else if i = 12 then char_to_symbol c &&& 0x0f
    else 0

/-- Modelled from the spec: `string_to_name` of `name.hpp` (declared there, not
among the sources), the packing of section 4.1: characters are mapped left to
right, most significant first, into twelve 5-bit groups and one 4-bit group. -/
def string_to_name (str : List Char) : Nat := string_to_name_from 0 str


/-! ### Closed form of the decoding loop (used in the proofs) -/

/-- Index into `charmap` of the character at position `k` (0 = first) of the
untrimmed string of `value`. -/
def symbol_at (value k : Nat) : Nat :=
  if k = 12 then value % 16 else (value / 2 ^ (59 - 5 * k)) % 32

/-- Characters at positions `i, i+1, .., i+n-1` of the untrimmed string. -/
def decode_from (v i n : Nat) : List Char :=
  (List.range' i n).map (fun k => charmap.getD (symbol_at v k) (Char.ofNat 0))

/-! ## Extension lookup and derived accessors (`libraries/chain/db_getter.cpp`) -/

/-- An entry of the `extensions` list of `chain_parameters`: the tagged union
`future_extensions`.  `C` and `V` are the payload types
`data_transaction_commission_percent_t` and `vm_cpu_limit_t` (declared in
headers that are not among the sources); every other alternative of the union
is an `other` entry with payload in `O`.  The constructor is the tag `which()`. -/
inductive future_extensions (C V O : Type) where
  | data_transaction_commission_percent_t (payload : C)
  | vm_cpu_limit_t (payload : V)
  | other (payload : O)
deriving DecidableEq

/-- The part of `chain_parameters` the accessors read. -/
structure chain_parameters (C V O : Type) where
  extensions : List (future_extensions C V O)

/-- The loop of `database::get_commission_percent` over `params.extensions`;
`dflt` is the default-constructed `data_transaction_commission_percent_t`. -/
def get_commission_percent_loop {C V O : Type} (dflt : C) :
    List (future_extensions C V O) → C
  | [] => dflt
  | .data_transaction_commission_percent_t payload :: _ => payload
  | _ :: rest => get_commission_percent_loop dflt rest

/-- The accessor `database::get_commission_percent`. -/
def get_commission_percent {C V O : Type} (dflt : C) (params : chain_parameters C V O) : C :=
  get_commission_percent_loop dflt params.extensions

/-- The loop of `database::get_cpu_limit` over `params.extensions`; `dflt` is
the default-constructed `vm_cpu_limit_t`. -/
def get_cpu_limit_loop {C V O : Type} (dflt : V) :
    List (future_extensions C V O) → V
  | [] => dflt
  | .vm_cpu_limit_t payload :: _ => payload
  | _ :: rest => get_cpu_limit_loop dflt rest

/-- The accessor `database::get_cpu_limit`. -/
def get_cpu_limit {C V O : Type} (dflt : V) (params : chain_parameters C V O) : V :=
  get_cpu_limit_loop dflt params.extensions

/-- Whether an entry carries the tag of `data_transaction_commission_percent_t`. -/
def future_extensions.is_commission {C V O : Type} : future_extensions C V O → Bool
  | .data_transaction_commission_percent_t _ => true
  | _ => false

/-- Whether an entry carries the tag of `vm_cpu_limit_t`. -/
def future_extensions.is_cpu_limit {C V O : Type} : future_extensions C V O → Bool
  | .vm_cpu_limit_t _ => true
  | _ => false

/-- What `last_non_undoable_block_num` reads from the database: the
`head_block_number` field of the dynamic global property object (`uint32_t`)
and the size of the undo stack `_undo_db` (`size_t`, 64 bits). -/
structure database where
  head_block_number : Nat
  undo_db_size : Nat
deriving DecidableEq

/-- The accessor `database::head_block_num`, a `uint32_t`. -/
def database.head_block_num (db : database) : Nat := db.head_block_number % 2 ^ 32

/-- The accessor `database::last_non_undoable_block_num`: the difference is
taken in unsigned 64-bit arithmetic and returned as a `uint32_t`. -/
def database.last_non_undoable_block_num (db : database) : Nat :=
  ((db.head_block_num + 2 ^ 64 - db.undo_db_size % 2 ^ 64) % 2 ^ 64) % 2 ^ 32

/-! ## The redpacket contract (`contracts/examples/redpacket/redpacket.cpp`) -/

/-- The pair `contract_asset{amount, asset_id}`; `amount` is an `int64_t`. -/
structure contract_asset where
  amount : Int
  asset_id : Nat
deriving DecidableEq

/-- A row of the `packet` table; its primary key is `issuer`. -/
structure packet where
  issuer : Nat
  pub_key : String
  total_amount : contract_asset
  number : Nat
  subpackets : List Nat
deriving DecidableEq

/-- An entry of the `accounts` vector of a record. -/
structure account where
  account_id : Nat
  amount : Nat
deriving DecidableEq

/-- A row of the `record` table; its primary key is `packet_issuer`. -/
structure record where
  packet_issuer : Nat
  accounts : List account
deriving DecidableEq

/-- The two tables of the contract. -/
structure redpacket where
  packets : List packet
  records : List record
deriving DecidableEq

/-- The lookup `packets.find(key)`; `none` stands for `packets.end()`. -/
def redpacket.find_packet (self : redpacket) (key : Nat) : Option packet :=
  self.packets.find? (fun p => p.issuer == key)

/-- The lookup `records.find(key)`; `none` stands for `records.end()`. -/
def redpacket.find_record (self : redpacket) (key : Nat) : Option record :=
  self.records.find? (fun r => r.packet_issuer == key)

/-- What the host supplies to an action: the sender, the attached asset, the
head block number and the first byte `sum160.hash[0]` of the `ripemd160` digest
of a string. -/
structure action_context where
  trx_sender : Nat
  action_asset_amount : Int
  action_asset_id : Nat
  head_block_num : Int
  ripemd160_hash0 : String → Nat

/-- How an action can stop early: a failed `graphene_assert` with its message, a
division by zero, or a read of a vector outside its bounds. -/
inductive failure where
  | assertion (msg : String)
  | division_by_zero
  | out_of_range
deriving DecidableEq

/-- What a call of an action leaves behind: whether it stopped early, and the
tables after the call. -/
structure call_result where
  failed : Option failure
  tables : redpacket
deriving DecidableEq

/-- Reduction of an integer to the range of `int64_t` (two's complement). -/
def wrap_int64 (x : Int) : Int := (x + 2 ^ 63) % 2 ^ 64 - 2 ^ 63

/-- Subtraction of `uint64_t` values, which wraps around below zero. -/
def uint64_sub (a b : Nat) : Nat := (a + 2 ^ 64 - b % 2 ^ 64) % 2 ^ 64

/-- Conversion of an `int64_t` to `uint64_t`. -/
def to_uint64 (x : Int) : Nat := (x % 2 ^ 64).toNat

/-- The string `random_str` of the first loop of `create`. -/
def random_str (pubkey : String) (i : Nat) (block_num : Int) : String :=
  pubkey ++ toString i ++ toString block_num

/-- The `uint8_t share` of the first loop of `create`, from `sum160.hash[0]`. -/
def share_of (hash0 : Nat) : Int :=
  if hash0 % 256 = 0 then 10 else ((hash0 % 256 : Nat) : Int)

/-- The vector `shares` when the first loop of `create` has finished (the loop
runs for `i = 0 .. number - 1`). -/
def create_shares (ctx : action_context) (pubkey : String) (number : Nat) : List Int :=
  (List.range number).map
    (fun i => share_of (ctx.ripemd160_hash0 (random_str pubkey i ctx.head_block_num)))

/-- The loop `for (int i = 0; i < number - 1; i++)` inside the `emplace` of
`create`, with `todo` passes left to run from loop counter `i`; the state is
`(subpackets, share_used_sum)`.  A pass stops the action when it reads `shares`
outside its bounds or divides by a zero `shares_sum`. -/
def create_split_loop (total_amount : Int) (shares : List Int) (shares_sum : Int) :
    Nat → Nat → List Nat → Int → Except failure (List Nat × Int)
  | 0, _, subpackets, share_used_sum => .ok (subpackets, share_used_sum)
  | todo + 1, i, subpackets, share_used_sum =>
    match shares[i]? with
    | none => .error .out_of_range
    | some share =>
      if shares_sum = 0 then .error .division_by_zero
      else
        let share_amount := wrap_int64 (Int.tdiv (wrap_int64 (total_amount * share)) shares_sum)
        create_split_loop total_amount shares shares_sum todo (i + 1)
          (subpackets ++ [to_uint64 share_amount]) (wrap_int64 (share_used_sum + share_amount))

/-- The action `redpacket::create(pubkey, number)`; `number` is a `uint64_t`. -/
def redpacket.create (self : redpacket) (ctx : action_context) (pubkey : String)
    (number : Nat) : call_result :=
  let total_amount := ctx.action_asset_amount
  let asset_id := ctx.action_asset_id
  let owner := ctx.trx_sender
  match self.find_packet owner with
  | some _ => { failed := some (.assertion "already has one redpacket"), tables := self }
  | none =>
    if number ≤ 1000 then
      let shares := create_shares ctx pubkey number
      let shares_sum := shares.sum
      match create_split_loop total_amount shares shares_sum (uint64_sub number 1) 0 [] 0 with
      | .error e => { failed := some e, tables := self }
      | .ok (subpackets, share_used_sum) =>
        let o : packet :=
          { issuer := owner
            pub_key := pubkey
            total_amount := { amount := total_amount, asset_id := asset_id }
            number := number % 2 ^ 32
            subpackets := subpackets ++ [to_uint64 (wrap_int64 (total_amount - share_used_sum))] }
        { failed := none, tables := { self with packets := self.packets ++ [o] } }
    else { failed := some (.assertion "max 1000 redpacket"), tables := self }


/-! ### The actions `open` and `close` -/

/-- The update `table.modify(itr, payer, f)` of a table whose rows have the
primary key `pk`: `itr` points to the first row with key `key`, and `f` is
applied to that row. -/
def table_modify {α : Type} (pk : α → Nat) (f : α → α) (key : Nat) : List α → List α
  | [] => []
  | r :: rows => if pk r == key then f r :: rows else r :: table_modify pk f key rows

/-- The removal `table.erase(itr)`, `itr` pointing to the first row with key
`key`. -/
def table_erase {α : Type} (pk : α → Nat) (key : Nat) (rows : List α) : List α :=
  rows.eraseP (fun r => pk r == key)

/-- A call `withdraw_asset(_self, to, asset_id, amount)`; `amount` is an
`int64_t`. -/
structure withdrawal where
  to_account : Nat
  asset_id : Nat
  amount : Int
deriving DecidableEq

/-- What `open` and `close` take from outside besides the action context: the
host function `verify_signature(data, sig, pub_key)`, and the content of memory
that the language leaves indeterminate, namely what is read for
`packet_iter->total_amount.asset_id` once `packet_iter` has been erased, what is
read for `packet_iter->subpackets[idx]` when `idx` is not below the size of the
vector (or the packet has been erased), and what the local `left_amount` of
`close`, declared without initialiser, holds before its loop. -/
structure host_state where
  verify_signature : String → String → String → Int
  erased_asset_id : Nat
  past_end_subpacket : Nat
  left_amount : Int

/-- What a call of `open` or `close` leaves behind: whether it stopped early,
the tables at that point, the calls of `withdraw_asset` it made, and whether it
read memory with indeterminate content (see `host_state`). -/
structure action_result where
  failed : Option failure
  tables : redpacket
  withdrawals : List withdrawal
  invalid_read : Bool
deriving DecidableEq

/-- The part of `redpacket::open` from `// update records` on: `tables` holds
the record of `packet_issuer` (possibly just emplaced) and `pkt` is the row
`*packet_iter`.  The modulo by a zero size stops the action.  The reads for the
call of `withdraw_asset` come after the erasures; they feed that call only, so
the action goes on with what memory holds (taken from `host`) and the result
reports the read in `invalid_read`. -/
def redpacket.open_update (tables : redpacket) (sender : Nat) (host : host_state)
    (pkt : packet) (packet_issuer timestamp : Nat) : action_result :=
  if h : pkt.subpackets.length = 0 then
    { failed := some .division_by_zero, tables := tables, withdrawals := [],
      invalid_read := false }
  else
    let idx := timestamp % pkt.subpackets.length
    let amount := pkt.subpackets.get ⟨idx, Nat.mod_lt _ (Nat.pos_of_ne_zero h)⟩
    let records1 := table_modify record.packet_issuer
      (fun o => { packet_issuer := packet_issuer,
                  accounts := o.accounts ++ [{ account_id := sender, amount := amount }] })
      packet_issuer tables.records
    let packets1 := table_modify packet.issuer
      (fun o => { o with subpackets := o.subpackets.eraseIdx idx })
      packet_issuer tables.packets
    let subpackets1 := pkt.subpackets.eraseIdx idx
    if subpackets1.isEmpty then
      { failed := none
        tables := { packets := table_erase packet.issuer packet_issuer packets1
                    records := table_erase record.packet_issuer packet_issuer records1 }
        withdrawals := [{ to_account := sender, asset_id := host.erased_asset_id,
                          amount := wrap_int64 host.past_end_subpacket }]
        invalid_read := true }
    else
      match subpackets1[idx]? with
      | some subpacket =>
        { failed := none
          tables := { packets := packets1, records := records1 }
          withdrawals := [{ to_account := sender, asset_id := pkt.total_amount.asset_id,
                            amount := wrap_int64 subpacket }]
          invalid_read := false }
      | none =>
        { failed := none
          tables := { packets := packets1, records := records1 }
          withdrawals := [{ to_account := sender, asset_id := pkt.total_amount.asset_id,
                            amount := wrap_int64 host.past_end_subpacket }]
          invalid_read := true }

/-- The action `redpacket::open(packet_issuer, sig, timestamp)`. -/
def redpacket.open (self : redpacket) (ctx : action_context) (host : host_state)
    (packet_issuer : Nat) (sig : String) (timestamp : Nat) : action_result :=
  let sender := ctx.trx_sender
  match self.find_packet packet_issuer with
  | none =>
    { failed := some (.assertion "no redpacket"), tables := self, withdrawals := [],
      invalid_read := false }
  | some pkt =>
    if host.verify_signature (toString timestamp) sig pkt.pub_key = 0 then
      match self.find_record packet_issuer with
      | none =>
        redpacket.open_update
          { self with records := self.records ++ [{ packet_issuer := packet_issuer, accounts := [] }] }
          sender host pkt packet_issuer timestamp
      | some rec =>
        if rec.accounts.any (fun act => act.account_id == sender) then
          { failed := some (.assertion "redpacket can only be opened once"), tables := self,
            withdrawals := [], invalid_read := false }
        else redpacket.open_update self sender host pkt packet_issuer timestamp
    else
      { failed := some (.assertion "signature not valid"), tables := self, withdrawals := [],
        invalid_read := false }

/-- The action `redpacket::close()`.  The sum `left_amount` starts from what
the local holds on entry, since it is declared without initialiser. -/
def redpacket.close (self : redpacket) (ctx : action_context) (host : host_state) :
    action_result :=
  let owner := ctx.trx_sender
  match self.find_packet owner with
  | none =>
    { failed := some (.assertion "no redpacket"), tables := self, withdrawals := [],
      invalid_read := false }
  | some pkt =>
    match self.find_record owner with
    | none =>
      { failed := some (.assertion "no redpacket"), tables := self, withdrawals := [],
        invalid_read := false }
    | some _ =>
      let asset_id := pkt.total_amount.asset_id
      let left_amount := pkt.subpackets.foldl
        (fun left_amount subpacket => wrap_int64 (left_amount + (subpacket : Int)))
        host.left_amount
      { failed := none
        tables := { packets := table_erase packet.issuer owner self.packets
                    records := table_erase record.packet_issuer owner self.records }
        withdrawals := [{ to_account := owner, asset_id := asset_id, amount := left_amount }]
        invalid_read := true }

/-- The tables reachable from empty tables by calls of the three actions that
run to their end; `guard` restricts the calls of `create` that are counted. -/
inductive reachable (guard : action_context → Nat → Prop) : redpacket → Prop where
  | init : reachable guard { packets := [], records := [] }
  | by_create (s : redpacket) (ctx : action_context) (pubkey : String) (number : Nat) :
      reachable guard s → guard ctx number → (s.create ctx pubkey number).failed = none →
      reachable guard (s.create ctx pubkey number).tables
  | by_open (s : redpacket) (ctx : action_context) (host : host_state)
      (packet_issuer : Nat) (sig : String) (timestamp : Nat) :
      reachable guard s → (s.open ctx host packet_issuer sig timestamp).failed = none →
      reachable guard (s.open ctx host packet_issuer sig timestamp).tables
  | by_close (s : redpacket) (ctx : action_context) (host : host_state) :
      reachable guard s → (s.close ctx host).failed = none →
      reachable guard (s.close ctx host).tables

/-- The guard of `create` calls named in the conservation claim: between 1 and
1000 shares and a non-negative amount `T` with `T * 255` inside `int64_t`. -/
def create_guard (ctx : action_context) (number : Nat) : Prop :=
  1 ≤ number ∧ number ≤ 1000 ∧ 0 ≤ ctx.action_asset_amount ∧
    ctx.action_asset_amount * 255 < 2 ^ 63

/-- The sum of the amounts listed in a record, zero when there is no record. -/
def record_sum : Option record → Nat
  | none => 0
  | some r => (r.accounts.map (fun act => act.amount)).sum

/-- Uniqueness of the primary keys in both tables, which every `multi_index`
table has. -/
def redpacket.keys_unique (s : redpacket) : Prop :=
  (s.packets.map packet.issuer).Nodup ∧ (s.records.map record.packet_issuer).Nodup

/-- The body of `create` as a function of the result `found` of the lookup
`packets.find(owner)` and of the outcome `split` of the splitting loop (used in
the proofs). -/
def create_result (self : redpacket) (ctx : action_context) (pubkey : String) (number : Nat)
    (found : Option packet) (split : Except failure (List Nat × Int)) : call_result :=
  match found with
  | some _ => { failed := some (.assertion "already has one redpacket"), tables := self }
  | none =>
    if number ≤ 1000 then
      match split with
      | .error e => { failed := some e, tables := self }
      | .ok (subpackets, share_used_sum) =>
        { failed := none
          tables := { self with packets := self.packets ++ [
            { issuer := ctx.trx_sender
              pub_key := pubkey
              total_amount := { amount := ctx.action_asset_amount,
                                asset_id := ctx.action_asset_id }
              number := number % 2 ^ 32
              subpackets := subpackets ++
                [to_uint64 (wrap_int64 (ctx.action_asset_amount - share_used_sum))] }] } }
    else { failed := some (.assertion "max 1000 redpacket"), tables := self }

/-! ## Object store and undo sessions (spec sections 3, 4.2 and 4.3) -/

/-- Modelled from the spec: the object store of sections 3 and 4.2, which is not
among the sources (`db_getter.cpp` only calls `get` and `_undo_db.size()`).  An
object is addressed by the composite key `(type_tag, instance_id)`; `next_id`
gives, per type, the instance id the next insertion gets. -/
structure object_store (V : Type) where
  objects : Nat × Nat → Option V
  next_id : Nat → Nat

/-- Modelled from the spec: a delta record of an undo session (section 3), for
one touched object: a tombstone for an insertion (the object did not exist
before), the prior value for a modification, the removed value for an erasure. -/
inductive delta (V : Type) where
  | created (id : Nat × Nat)
  | modified (id : Nat × Nat) (prior : V)
  | removed (id : Nat × Nat) (prior : V)

/-- Modelled from the spec: the object a delta record is about. -/
def delta.id {V : Type} : delta V → Nat × Nat
  | .created id => id
  | .modified id _ => id
  | .removed id _ => id

/-- Modelled from the spec: a store with one open undo session (section 4.3),
whose delta records are kept in mutation order. -/
structure session (V : Type) where
  store : object_store V
  log : List (delta V)

/-- Modelled from the spec: the mutations of section 4.2: `insert` of an object
of a type, built by `constructor_fn` from its new id, `modify` of an object by
`mutator_fn`, and `erase` of an object. -/
inductive store_op (V : Type) where
  | insert (type_tag : Nat) (constructor_fn : Nat × Nat → V)
  | modify (id : Nat × Nat) (mutator_fn : V → V)
  | erase (id : Nat × Nat)

/-- Modelled from the spec: `begin_session`, a new session starts empty. -/
def begin_session {V : Type} (s : object_store V) : session V :=
  { store := s, log := [] }

/-- Modelled from the spec: whether the session already has a delta record for
the object `id`. -/
def session.touched {V : Type} (st : session V) (id : Nat × Nat) : Bool :=
  st.log.any (fun d => d.id == id)

/-- Modelled from the spec: the log after a mutation of `id`: a mutation that
touches the object for the first time in the session appends one record. -/
def session.record {V : Type} (st : session V) (id : Nat × Nat) (d : delta V) :
    List (delta V) :=
  if st.touched id then st.log else st.log ++ [d]

/-- Modelled from the spec: one mutation inside the open session.  `admits`
decides the secondary uniqueness constraints of `insert`; an `insert` that is
refused (`DuplicateKey`) and a `modify` or `erase` of an absent object
(`NotFound`) leave store and session as they are. -/
def session.apply {V : Type} (admits : object_store V → V → Bool) (st : session V) :
    store_op V → session V
  | .insert type_tag constructor_fn =>
    let id := (type_tag, st.store.next_id type_tag)
    if admits st.store (constructor_fn id) then
      { store := { objects := Function.update st.store.objects id (some (constructor_fn id))
                   next_id := Function.update st.store.next_id type_tag
                     (st.store.next_id type_tag + 1) }
        log := st.record id (.created id) }
    else st
  | .modify id mutator_fn =>
    match st.store.objects id with
    | none => st
    | some v =>
      { store := { objects := Function.update st.store.objects id (some (mutator_fn v))
                   next_id := st.store.next_id }
        log := st.record id (.modified id v) }
  | .erase id =>
    match st.store.objects id with
    | none => st
    | some v =>
      { store := { objects := Function.update st.store.objects id none
                   next_id := st.store.next_id }
        log := st.record id (.removed id v) }

/-- Modelled from the spec: reversal of one delta record: an inserted object is
removed and its instance id given back, a modified or erased object gets its
prior value back. -/
def undo_delta {V : Type} (d : delta V) (s : object_store V) : object_store V :=
  match d with
  | .created id =>
    { objects := Function.update s.objects id none
      next_id := Function.update s.next_id id.1 id.2 }
  | .modified id prior =>
    { objects := Function.update s.objects id (some prior), next_id := s.next_id }
  | .removed id prior =>
    { objects := Function.update s.objects id (some prior), next_id := s.next_id }

/-- Modelled from the spec: replay of the delta records in reverse order, the
last record first. -/
def undo_log {V : Type} : List (delta V) → object_store V → object_store V
  | [], s => s
  | d :: rest, s => undo_delta d (undo_log rest s)

/-- Modelled from the spec: `undo` of the session, which gives the store back. -/
def session.undo {V : Type} (st : session V) : object_store V :=
  undo_log st.log st.store

/-- Modelled from the spec: instance ids are dense per type and assigned in
increasing order, so no object sits at or above the next id of its type. -/
def object_store.dense {V : Type} (s : object_store V) : Prop :=
  ∀ type_tag instance_id, s.next_id type_tag ≤ instance_id →
    s.objects (type_tag, instance_id) = none

/-- Invariant of a session `st` opened on the store `s0` (used in the proofs):
the replay of the log
gives `s0` back, ids are dense, and every record is about an id below the next
id of its type. -/
def session_inv {V : Type} (s0 : object_store V) (st : session V) : Prop :=
  undo_log st.log st.store = s0 ∧ st.store.dense ∧
    ∀ d ∈ st.log, d.id.2 < st.store.next_id d.id.1

/-! ## Theorems: name codec -/

theorem to_string_untrimmed_eq (v : Nat) :
    to_string_untrimmed v
      = (List.range 13).map (fun k => charmap.getD (symbol_at v k) (Char.ofNat 0)) := by
  have h15 : ∀ x : Nat, x &&& 15 = x % 16 := fun x => Nat.and_pow_two_sub_one_eq_mod x 4
  have h31 : ∀ x : Nat, x &&& 31 = x % 32 := fun x => Nat.and_pow_two_sub_one_eq_mod x 5
  simp only [to_string_untrimmed, List.range, List.range.loop, List.foldl, to_string_step,
    List.replicate, List.set, List.map, symbol_at, Nat.shiftRight_eq_div_pow,
    Nat.div_div_eq_div_mul]
  norm_num [h15, h31]

theorem symbol_at_lt (v k : Nat) : symbol_at v k < 32 := by
  unfold symbol_at; split <;> omega

theorem charmap_getD_mem (i : Nat) (h : i < 32) : charmap.getD i (Char.ofNat 0) ∈ charmap := by
  interval_cases i <;> decide

theorem to_string_untrimmed_length (v : Nat) : (to_string_untrimmed v).length = 13 := by
  simp [to_string_untrimmed_eq]

theorem to_string_untrimmed_mem (v : Nat) (c : Char) (h : c ∈ to_string_untrimmed v) :
    c ∈ charmap := by
  rw [to_string_untrimmed_eq] at h
  obtain ⟨k, -, rfl⟩ := List.mem_map.1 h
  exact charmap_getD_mem _ (symbol_at_lt v k)

theorem trim_right_if_eq (p : Char → Bool) (l : List Char) :
    trim_right_if p l = l.rdropWhile p := rfl

theorem name_to_string_initial (v : Nat) :
    name.to_string ⟨v⟩ <+: to_string_untrimmed v := by
  unfold name.to_string
  rw [trim_right_if_eq]
  exact List.rdropWhile_prefix _ _

theorem name_to_string_mem (v : Nat) (c : Char) (h : c ∈ name.to_string ⟨v⟩) :
    c ∈ charmap :=
  to_string_untrimmed_mem v c ((name_to_string_initial v).subset h)

theorem name_to_string_length (v : Nat) : (name.to_string ⟨v⟩).length ≤ 13 := by
  have h := (name_to_string_initial v).length_le
  rwa [to_string_untrimmed_length] at h

theorem name_to_string_getLast (v : Nat) : (name.to_string ⟨v⟩).getLast? ≠ some '.' := by
  intro h
  have hne : name.to_string ⟨v⟩ ≠ [] := by
    intro h0; rw [h0] at h; simp at h
  rw [List.getLast?_eq_getLast _ hne] at h
  have h1 := List.rdropWhile_last_not (fun c => c == '.') (to_string_untrimmed v) hne
  simp only [Option.some.injEq] at h
  apply h1
  have : (List.rdropWhile (fun c => c == '.') (to_string_untrimmed v)).getLast hne = '.' := h
  rw [this]; rfl


/-! ### Packing followed by decoding -/

theorem char_to_symbol_charmap :
    ∀ c ∈ charmap, char_to_symbol c < 32 ∧ charmap.getD (char_to_symbol c) (Char.ofNat 0) = c := by
  decide

theorem char_to_symbol_take16 :
    ∀ c ∈ charmap.take 16, char_to_symbol c < 16 := by
  decide

theorem group_of_high (a r e f : Nat) (h : e + 5 ≤ f) :
    (a * 2 ^ f + r) / 2 ^ e % 32 = r / 2 ^ e % 32 := by
  obtain ⟨d, rfl⟩ : ∃ d, f = e + 5 + d := ⟨f - (e + 5), by omega⟩
  have h1 : a * 2 ^ (e + 5 + d) + r = 2 ^ e * (32 * (a * 2 ^ d)) + r := by
    rw [pow_add, pow_add]; ring
  rw [h1, Nat.mul_add_div (Nat.two_pow_pos _), Nat.mul_add_mod]

theorem group_mod (v e : Nat) (h : e + 5 ≤ 64) :
    (v % 2 ^ 64) / 2 ^ e % 32 = v / 2 ^ e % 32 := by
  obtain ⟨d, hd⟩ : ∃ d, 64 = e + 5 + d := ⟨64 - (e + 5), by omega⟩
  have h1 : (2:Nat) ^ 64 = 2 ^ e * (32 * 2 ^ d) := by
    rw [hd, pow_add, pow_add]; ring
  rw [h1, Nat.mod_mul_right_div_self, Nat.mod_mod_of_dvd _ (Dvd.intro _ rfl)]

theorem symbol_at_mod (v k : Nat) : symbol_at (v % 2 ^ 64) k = symbol_at v k := by
  unfold symbol_at
  split
  · omega
  · exact group_mod v _ (by omega)

theorem symbol_at_high (a r i k : Nat) (hik : i < k) (hk : k ≤ 12) :
    symbol_at (a * 2 ^ (59 - 5 * i) + r) k = symbol_at r k := by
  unfold symbol_at
  split
  · obtain ⟨d, hd⟩ : ∃ d, 59 - 5 * i = 4 + d := ⟨59 - 5 * i - 4, by omega⟩
    rw [hd, pow_add, ← mul_assoc, mul_comm a, mul_assoc]
    norm_num
    omega
  · exact group_of_high a r _ _ (by omega)

theorem symbol_at_head (a r i : Nat) (hi : i < 12) (ha : a < 32) (hr : r < 2 ^ (59 - 5 * i)) :
    symbol_at (a * 2 ^ (59 - 5 * i) + r) i = a := by
  unfold symbol_at
  rw [if_neg (by omega), mul_comm, Nat.mul_add_div (Nat.two_pow_pos _),
    Nat.div_eq_of_lt hr]
  simpa using Nat.mod_eq_of_lt ha

theorem string_to_name_from_cons (i : Nat) (c : Char) (cs : List Char) (hi : i < 12) :
    string_to_name_from i (c :: cs)
      = ((char_to_symbol c % 32) <<< (59 - 5 * i)) ||| string_to_name_from (i + 1) cs := by
  have h31 : ∀ x : Nat, x &&& 31 = x % 32 := fun x => Nat.and_pow_two_sub_one_eq_mod x 5
  have he : 64 - 5 * (i + 1) = 59 - 5 * i := by omega
  simp only [string_to_name_from, if_pos hi, he]
  norm_num [h31]

theorem string_to_name_from_lt (cs : List Char) :
    ∀ i, i ≤ 12 → string_to_name_from i cs < 2 ^ (64 - 5 * i) := by
  induction cs with
  | nil => intro i _; simp [string_to_name_from]
  | cons c cs ih =>
    intro i hi
    rcases Nat.lt_or_ge i 12 with h | h
    · rw [string_to_name_from_cons i c cs h]
      have hr := ih (i + 1) (by omega)
      have he : 64 - 5 * (i + 1) = 59 - 5 * i := by omega
      rw [he] at hr
      have he2 : 64 - 5 * i = (59 - 5 * i) + 5 := by omega
      rw [he2]
      apply Nat.or_lt_two_pow
      · rw [Nat.shiftLeft_eq, pow_add]
        have : char_to_symbol c % 32 < 32 := Nat.mod_lt _ (by norm_num)
        have hp : 0 < 2 ^ (59 - 5 * i) := Nat.two_pow_pos _
        calc char_to_symbol c % 32 * 2 ^ (59 - 5 * i) < 32 * 2 ^ (59 - 5 * i) :=
              Nat.mul_lt_mul_of_pos_right this hp
          _ = 2 ^ (59 - 5 * i) * 2 ^ 5 := by ring
      · exact lt_of_lt_of_le hr (Nat.pow_le_pow_right (by norm_num) (by omega))
    · have h12 : i = 12 := by omega
      subst h12
      have h15 : ∀ x : Nat, x &&& 15 = x % 16 := fun x => Nat.and_pow_two_sub_one_eq_mod x 4
      simp only [string_to_name_from]
      norm_num [h15]
      omega

theorem string_to_name_from_cons_add (i : Nat) (c : Char) (cs : List Char) (hi : i < 12) :
    string_to_name_from i (c :: cs)
      = (char_to_symbol c % 32) * 2 ^ (59 - 5 * i) + string_to_name_from (i + 1) cs := by
  rw [string_to_name_from_cons i c cs hi, Nat.shiftLeft_eq, mul_comm]
  have hr := string_to_name_from_lt cs (i + 1) (by omega)
  have he : 64 - 5 * (i + 1) = 59 - 5 * i := by omega
  rw [he] at hr
  exact (Nat.mul_add_lt_is_or hr _).symm


theorem to_string_untrimmed_decode_from (v : Nat) :
    to_string_untrimmed v = decode_from v 0 13 := by
  rw [to_string_untrimmed_eq, decode_from, List.range_eq_range']

theorem decode_from_zero (i n : Nat) : decode_from 0 i n = List.replicate n '.' := by
  unfold decode_from
  apply List.eq_replicate_iff.2
  refine ⟨by simp, ?_⟩
  intro c hc
  obtain ⟨k, -, rfl⟩ := List.mem_map.1 hc
  have : symbol_at 0 k = 0 := by unfold symbol_at; split <;> simp
  rw [this]; rfl

theorem decode_from_congr (v w i n : Nat)
    (h : ∀ k, i ≤ k → k < i + n → symbol_at v k = symbol_at w k) :
    decode_from v i n = decode_from w i n := by
  unfold decode_from
  apply List.map_congr_left
  intro k hk
  rw [List.mem_range'_1] at hk
  rw [h k hk.1 hk.2]

theorem decode_from_string_to_name_from (cs : List Char) :
    ∀ i, i + cs.length ≤ 13 → (∀ c ∈ cs, c ∈ charmap) →
      (∀ c ∈ cs.drop (12 - i), c ∈ charmap.take 16) →
      decode_from (string_to_name_from i cs) i (13 - i)
        = cs ++ List.replicate (13 - i - cs.length) '.' := by
  induction cs with
  | nil =>
    intro i _ _ _
    simp [string_to_name_from, decode_from_zero]
  | cons c cs ih =>
    intro i hlen hmem hlast
    have hc := char_to_symbol_charmap c (hmem c (List.mem_cons_self _ _))
    simp only [List.length_cons] at hlen
    rcases Nat.lt_or_ge i 12 with h | h
    · have hr := string_to_name_from_lt cs (i + 1) (by omega)
      have he : 64 - 5 * (i + 1) = 59 - 5 * i := by omega
      rw [he] at hr
      have hn : 13 - i = (13 - (i + 1)) + 1 := by omega
      rw [string_to_name_from_cons_add i c cs h, Nat.mod_eq_of_lt hc.1, hn]
      unfold decode_from
      rw [List.range'_succ, List.map_cons, symbol_at_head _ _ i h hc.1 hr, hc.2]
      have ht := decode_from_congr
        (char_to_symbol c * 2 ^ (59 - 5 * i) + string_to_name_from (i + 1) cs)
        (string_to_name_from (i + 1) cs) (i + 1) (13 - (i + 1))
        (fun k hk1 hk2 => symbol_at_high _ _ i k (by omega) (by omega))
      unfold decode_from at ht
      rw [ht]
      have hd : 12 - i = (12 - (i + 1)) + 1 := by omega
      rw [hd, List.drop_succ_cons] at hlast
      have := ih (i + 1) (by omega) (fun c hc => hmem c (List.mem_cons_of_mem _ hc)) hlast
      unfold decode_from at this
      rw [this]
      simp only [List.length_cons, List.cons_append]
      have hk : 13 - (i + 1) + 1 - (cs.length + 1) = 13 - (i + 1) - cs.length := by omega
      rw [hk]
    · have h12 : i = 12 := by omega
      subst h12
      have hcs : cs = [] := List.length_eq_zero.1 (by omega)
      subst hcs
      have h16 := char_to_symbol_take16 c (hlast c (by simp))
      have h15 : ∀ x : Nat, x &&& 15 = x % 16 := fun x => Nat.and_pow_two_sub_one_eq_mod x 4
      have hv : string_to_name_from 12 [c] = char_to_symbol c := by
        simp only [string_to_name_from]
        norm_num [h15]
        omega
      rw [hv]
      have h2 := hc.2
      simp only [List.getD_eq_getElem?_getD] at h2
      simp [decode_from, symbol_at, Nat.mod_eq_of_lt h16, h2]

theorem trim_right_if_append_replicate (s : List Char) (n : Nat)
    (h : s.getLast? ≠ some '.') :
    trim_right_if (fun c => c == '.') (s ++ List.replicate n '.') = s := by
  rw [trim_right_if_eq]
  induction n with
  | zero =>
    simp only [List.replicate_zero, List.append_nil]
    rw [List.rdropWhile_eq_self_iff]
    intro hl hp
    apply h
    rw [List.getLast?_eq_getLast _ hl]
    simpa using hp
  | succ n ih =>
    rw [List.replicate_succ', ← List.append_assoc, List.rdropWhile_concat]
    simpa using ih

theorem to_string_untrimmed_mod (v : Nat) :
    to_string_untrimmed (v % 2 ^ 64) = to_string_untrimmed v := by
  rw [to_string_untrimmed_decode_from, to_string_untrimmed_decode_from]
  exact decode_from_congr _ _ _ _ (fun k _ _ => symbol_at_mod v k)

theorem to_string_string_to_name (s : List Char) (hlen : s.length ≤ 13)
    (hmem : ∀ c ∈ s, c ∈ charmap) (hmin : s.getLast? ≠ some '.')
    (hlast : ∀ c ∈ s.drop 12, c ∈ charmap.take 16) :
    name.to_string ⟨string_to_name s % 2 ^ 64⟩ = s := by
  unfold name.to_string
  simp only
  rw [to_string_untrimmed_mod, to_string_untrimmed_decode_from]
  have := decode_from_string_to_name_from s 0 (by omega) hmem hlast
  simp only [Nat.sub_zero] at this
  rw [string_to_name, this]
  exact trim_right_if_append_replicate s _ hmin

/-! ### Claims about `name::set` and `name::operator string` -/

theorem name_set_of_le (pack : List Char → Nat) (n : name) (str : List Char)
    (h : str.length ≤ 13) :
    name.set pack n str =
      if name.to_string ⟨pack str % 2 ^ 64⟩ = str then ⟨none, ⟨pack str % 2 ^ 64⟩⟩
      else ⟨some .not_normalized, ⟨pack str % 2 ^ 64⟩⟩ := by
  have h1 : strnlen str 14 ≤ 13 := by unfold strnlen; omega
  simp only [name.set, if_pos h1]

theorem name_set_of_gt (pack : List Char → Nat) (n : name) (str : List Char)
    (h : 13 < str.length) :
    name.set pack n str = ⟨some .longer_than_13, n⟩ := by
  have h1 : ¬ strnlen str 14 ≤ 13 := by unfold strnlen; omega
  simp only [name.set, if_neg h1]

/-- Whatever the packing function, `name::set` raises on a 13-character string
whose last character is not among the first sixteen symbols. -/
theorem name_set_raises_of_13th_high (pack : List Char → Nat) (n : name) (str : List Char)
    (hlen : str.length = 13) (h : ∀ c ∈ str.drop 12, c ∉ charmap.take 16) :
    (name.set pack n str).raised = some .not_normalized := by
  rw [name_set_of_le pack n str (by omega)]
  rw [if_neg]
  intro heq
  have hu := name_to_string_initial (pack str % 2 ^ 64)
  rw [heq] at hu
  have hl := to_string_untrimmed_length (pack str % 2 ^ 64)
  have he : str = to_string_untrimmed (pack str % 2 ^ 64) :=
    List.IsPrefix.eq_of_length hu (by rw [hlen, hl])
  have h12 : (to_string_untrimmed (pack str % 2 ^ 64)).drop 12
      = [charmap.getD (symbol_at (pack str % 2 ^ 64) 12) (Char.ofNat 0)] := by
    rw [to_string_untrimmed_eq]; rfl
  have hsym : symbol_at (pack str % 2 ^ 64) 12 < 16 := by
    unfold symbol_at; simp only [if_true]; omega
  have hin : ∀ i, i < 16 → charmap.getD i (Char.ofNat 0) ∈ charmap.take 16 := by
    intro i hi; interval_cases i <;> decide
  apply h (charmap.getD (symbol_at (pack str % 2 ^ 64) 12) (Char.ofNat 0))
  · have hd : str.drop 12 = (to_string_untrimmed (pack str % 2 ^ 64)).drop 12 :=
      congrArg (List.drop 12) he
    rw [hd, h12]; simp
  · exact hin _ hsym

/-- Claim C1, counterexample: the string "aaaaaaaaaaaaz" has 13 characters of the
alphabet and does not end in '.', yet `name::set` raises on it (the normalisation
check fails: the 13th character has only 4 bits). -/
theorem name_set_round_trip_fails_on_13th_z :
    ("aaaaaaaaaaaaz".toList).length ≤ 13 ∧
    (∀ c ∈ "aaaaaaaaaaaaz".toList, c ∈ charmap) ∧
    ("aaaaaaaaaaaaz".toList).getLast? ≠ some '.' ∧
    (name.set string_to_name ⟨0⟩ "aaaaaaaaaaaaz".toList).raised = some .not_normalized ∧
    (name.set string_to_name ⟨0⟩ "aaaaaaaaaaaaz".toList).self.to_string
      = "aaaaaaaaaaaaj".toList := by
  decide

/-- Claim C1, amended: for every string `s` of at most 13 characters of the
alphabet that does not end in '.', and whose 13th character, when there is one,
is among the first sixteen symbols ".12345abcdefghij", `name::set(s)` succeeds
and the string conversion of the resulting name is exactly `s`. -/
theorem name_set_round_trip (n : name) (s : List Char) (hlen : s.length ≤ 13)
    (hmem : ∀ c ∈ s, c ∈ charmap) (hmin : s.getLast? ≠ some '.')
    (hlast : ∀ c ∈ s.drop 12, c ∈ charmap.take 16) :
    (name.set string_to_name n s).raised = none ∧
    (name.set string_to_name n s).self.to_string = s := by
  have h := to_string_string_to_name s hlen hmem hmin hlast
  rw [name_set_of_le string_to_name n s hlen, if_pos h]
  exact ⟨rfl, h⟩

/-- Witness of `name_set_round_trip` at the 13-character name "eosio.token1j". -/
theorem name_set_round_trip_witness :
    (name.set string_to_name ⟨0⟩ "eosio.token1j".toList).raised = none ∧
    (name.set string_to_name ⟨0⟩ "eosio.token1j".toList).self.to_string
      = "eosio.token1j".toList :=
  name_set_round_trip ⟨0⟩ "eosio.token1j".toList (by decide) (by decide) (by decide) (by decide)

/-- Claim C2: whenever `name::set(s)` succeeds and leaves the value `v`, calling
`name::set` (on any name object) with the string conversion of `v` succeeds as
well and leaves the same value `v`; this holds for every packing function. -/
theorem name_set_of_to_string (pack : List Char → Nat) (n m : name) (s : List Char)
    (h : (name.set pack n s).raised = none) :
    (name.set pack m (name.set pack n s).self.to_string).raised = none ∧
    (name.set pack m (name.set pack n s).self.to_string).self = (name.set pack n s).self := by
  rcases Nat.lt_or_ge 13 s.length with hl | hl
  · rw [name_set_of_gt pack n s hl] at h
    simp at h
  · rw [name_set_of_le pack n s hl] at h ⊢
    by_cases heq : name.to_string ⟨pack s % 2 ^ 64⟩ = s
    · simp only [if_pos heq] at h ⊢
      rw [heq, name_set_of_le pack m s hl, if_pos heq]
      exact ⟨rfl, rfl⟩
    · simp only [if_neg heq] at h
      simp at h

/-- Witness of `name_set_of_to_string` at the name "eosio.token". -/
theorem name_set_of_to_string_witness :
    (name.set string_to_name ⟨7⟩
      (name.set string_to_name ⟨0⟩ "eosio.token".toList).self.to_string).raised = none ∧
    (name.set string_to_name ⟨7⟩
      (name.set string_to_name ⟨0⟩ "eosio.token".toList).self.to_string).self
      = (name.set string_to_name ⟨0⟩ "eosio.token".toList).self :=
  name_set_of_to_string string_to_name ⟨0⟩ ⟨7⟩ "eosio.token".toList (by decide)

/-- Claim C3: `name::set(str)` raises exactly when `str` is longer than 13
characters or the string re-derived from the packed value differs from `str`;
when it does not raise, `value` is the packed value; on a string longer than 13
characters (such as "toolongname12345") the length check raises and the object
is left as it was. -/
theorem name_set_raises_iff (pack : List Char → Nat) (n : name) (str : List Char) :
    ((name.set pack n str).raised ≠ none ↔
      (13 < str.length ∨ name.to_string ⟨pack str % 2 ^ 64⟩ ≠ str)) ∧
    ((name.set pack n str).raised = none →
      (name.set pack n str).self.value = pack str % 2 ^ 64) ∧
    (13 < str.length → name.set pack n str = ⟨some .longer_than_13, n⟩) ∧
    name.set pack n "toolongname12345".toList = ⟨some .longer_than_13, n⟩ := by
  refine ⟨?_, ?_, name_set_of_gt pack n str, name_set_of_gt pack n _ (by decide)⟩
  · rcases Nat.lt_or_ge 13 str.length with hl | hl
    · rw [name_set_of_gt pack n str hl]
      simp [hl]
    · rw [name_set_of_le pack n str hl]
      by_cases heq : name.to_string ⟨pack str % 2 ^ 64⟩ = str
      · simp only [if_pos heq]
        constructor
        · intro h; exact absurd rfl h
        · rintro (h | h)
          · omega
          · exact absurd heq h
      · simp only [if_neg heq]
        constructor
        · intro _; exact Or.inr heq
        · intro _ h; cases h
  · intro h
    rcases Nat.lt_or_ge 13 str.length with hl | hl
    · rw [name_set_of_gt pack n str hl] at h
      cases h
    · rw [name_set_of_le pack n str hl]
      split <;> rfl

/-- Witness of `name_set_raises_iff`: on "toolongname12345" the call raises at
the length check and the value 7 stays. -/
theorem name_set_raises_iff_witness :
    name.set string_to_name ⟨7⟩ "toolongname12345".toList = ⟨some .longer_than_13, ⟨7⟩⟩ :=
  (name_set_raises_iff string_to_name ⟨7⟩ "toolongname12345".toList).2.2.1 (by decide)

/-- Claim C4, counterexample: on "Abc", three characters with an upper-case
letter, `name::set` raises at the normalisation check, not at the site that
raises for a too long string. -/
theorem name_set_upper_case_raises_not_normalized :
    ("Abc".toList).length ≤ 13 ∧ (∃ c ∈ "Abc".toList, c ∉ charmap) ∧
    (name.set string_to_name ⟨0⟩ "Abc".toList).raised = some .not_normalized ∧
    (name.set string_to_name ⟨0⟩ "toolongname12345".toList).raised = some .longer_than_13 ∧
    (name.set string_to_name ⟨0⟩ "Abc".toList).raised
      ≠ (name.set string_to_name ⟨0⟩ "toolongname12345".toList).raised := by
  decide

/-- Claim C4, amended: for every string of at most 13 characters with a
character outside the alphabet, `name::set` fails at the normalisation check
(an exception of the same type `name_type_exception` as the too-long failure,
with the message of the normalisation check), the packed value being already
stored. -/
theorem name_set_outside_alphabet (pack : List Char → Nat) (n : name) (s : List Char)
    (hlen : s.length ≤ 13) (hout : ∃ c ∈ s, c ∉ charmap) :
    name.set pack n s = ⟨some .not_normalized, ⟨pack s % 2 ^ 64⟩⟩ := by
  rw [name_set_of_le pack n s hlen, if_neg]
  intro heq
  obtain ⟨c, hc, hnot⟩ := hout
  rw [← heq] at hc
  exact hnot (name_to_string_mem _ c hc)

/-- Witness of `name_set_outside_alphabet` at the string "a0b". -/
theorem name_set_outside_alphabet_witness :
    name.set string_to_name ⟨7⟩ "a0b".toList
      = ⟨some .not_normalized, ⟨string_to_name "a0b".toList % 2 ^ 64⟩⟩ :=
  name_set_outside_alphabet string_to_name ⟨7⟩ "a0b".toList (by decide) (by decide)

/-- Claim C5: for every value `v`, `name::operator string` returns a string of
at most 13 characters, all of them in the alphabet of `charmap`, whose last
character (if any) is not '.'; the value 0 gives the empty string. -/
theorem name_to_string_total_canonical (v : Nat) :
    (name.to_string ⟨v⟩).length ≤ 13 ∧
    (∀ c ∈ name.to_string ⟨v⟩, c ∈ charmap) ∧
    (name.to_string ⟨v⟩).getLast? ≠ some '.' ∧
    name.to_string ⟨0⟩ = [] :=
  ⟨name_to_string_length v, name_to_string_mem v, name_to_string_getLast v, by decide⟩

/-- Claim C6, counterexample: for the value `2^60`, whose bits 63..60 are 0001,
the symbol numbered by these four bits is '1', but the untrimmed string is
"2............": none of its thirteen characters is that symbol. -/
theorem to_string_top_four_bits_not_a_symbol :
    charmap.getD ((2 ^ 60 >>> 60) &&& 0x0f) (Char.ofNat 0) = '1' ∧
    to_string_untrimmed (2 ^ 60) = "2............".toList ∧
    ∀ p < 13, (to_string_untrimmed (2 ^ 60)).getD p (Char.ofNat 0)
      ≠ charmap.getD ((2 ^ 60 >>> 60) &&& 0x0f) (Char.ofNat 0) := by
  decide

/-- Claim C6, amended: the 4-bit symbol is the least significant one: for every
value `v` the last (13th) character comes from bits 3..0 of `v`, and each of
the other twelve characters from a 5-bit group of the upper 60 bits, the k-th
character (k = 0..11) from the group starting at bit `4 + 5 * (11 - k)`. -/
theorem to_string_untrimmed_bit_groups (v : Nat) :
    (to_string_untrimmed v).getD 12 (Char.ofNat 0)
      = charmap.getD (v &&& 0x0f) (Char.ofNat 0) ∧
    ∀ k < 12, (to_string_untrimmed v).getD k (Char.ofNat 0)
      = charmap.getD ((v >>> (4 + 5 * (11 - k))) &&& 0x1f) (Char.ofNat 0) := by
  have h15 : ∀ x : Nat, x &&& 15 = x % 16 := fun x => Nat.and_pow_two_sub_one_eq_mod x 4
  have h31 : ∀ x : Nat, x &&& 31 = x % 32 := fun x => Nat.and_pow_two_sub_one_eq_mod x 5
  rw [to_string_untrimmed_eq]
  constructor
  · norm_num [List.range, List.range.loop, symbol_at, h15]
  · intro k hk
    interval_cases k <;>
      norm_num [List.range, List.range.loop, symbol_at, h31, Nat.shiftRight_eq_div_pow]

/-! ## Theorems: extension lookup and derived accessors -/

theorem get_commission_percent_loop_first {C V O : Type} (dflt p : C)
    (pre post : List (future_extensions C V O))
    (h : ∀ e ∈ pre, e.is_commission = false) :
    get_commission_percent_loop dflt
      (pre ++ future_extensions.data_transaction_commission_percent_t p :: post) = p := by
  induction pre with
  | nil => rfl
  | cons e pre ih =>
    have he := h e (List.mem_cons_self _ _)
    have ih1 := ih (fun x hx => h x (List.mem_cons_of_mem _ hx))
    cases e with
    | data_transaction_commission_percent_t q => simp [future_extensions.is_commission] at he
    | vm_cpu_limit_t q => simpa [get_commission_percent_loop] using ih1
    | other q => simpa [get_commission_percent_loop] using ih1

theorem get_commission_percent_loop_absent {C V O : Type} (dflt : C)
    (exts : List (future_extensions C V O))
    (h : ∀ e ∈ exts, e.is_commission = false) :
    get_commission_percent_loop dflt exts = dflt := by
  induction exts with
  | nil => rfl
  | cons e exts ih =>
    have he := h e (List.mem_cons_self _ _)
    have ih1 := ih (fun x hx => h x (List.mem_cons_of_mem _ hx))
    cases e with
    | data_transaction_commission_percent_t q => simp [future_extensions.is_commission] at he
    | vm_cpu_limit_t q => simpa [get_commission_percent_loop] using ih1
    | other q => simpa [get_commission_percent_loop] using ih1

theorem get_cpu_limit_loop_first {C V O : Type} (dflt p : V)
    (pre post : List (future_extensions C V O))
    (h : ∀ e ∈ pre, e.is_cpu_limit = false) :
    get_cpu_limit_loop dflt (pre ++ future_extensions.vm_cpu_limit_t p :: post) = p := by
  induction pre with
  | nil => rfl
  | cons e pre ih =>
    have he := h e (List.mem_cons_self _ _)
    have ih1 := ih (fun x hx => h x (List.mem_cons_of_mem _ hx))
    cases e with
    | data_transaction_commission_percent_t q => simpa [get_cpu_limit_loop] using ih1
    | vm_cpu_limit_t q => simp [future_extensions.is_cpu_limit] at he
    | other q => simpa [get_cpu_limit_loop] using ih1

theorem get_cpu_limit_loop_absent {C V O : Type} (dflt : V)
    (exts : List (future_extensions C V O))
    (h : ∀ e ∈ exts, e.is_cpu_limit = false) :
    get_cpu_limit_loop dflt exts = dflt := by
  induction exts with
  | nil => rfl
  | cons e exts ih =>
    have he := h e (List.mem_cons_self _ _)
    have ih1 := ih (fun x hx => h x (List.mem_cons_of_mem _ hx))
    cases e with
    | data_transaction_commission_percent_t q => simpa [get_cpu_limit_loop] using ih1
    | vm_cpu_limit_t q => simp [future_extensions.is_cpu_limit] at he
    | other q => simpa [get_cpu_limit_loop] using ih1

/-- Claim C7: `get_commission_percent` returns the payload of the first entry
tagged `data_transaction_commission_percent_t` (entries of other tags before it
and all entries after it are ignored), and the default-constructed value when
no entry has that tag, in particular on the empty list; `get_cpu_limit` does
the same with the tag `vm_cpu_limit_t`.  Both are total functions. -/
theorem get_extension_first_match_or_default {C V O : Type} (dc : C) (dv : V)
    (params : chain_parameters C V O) :
    (∀ pre p post,
      params.extensions = pre ++ future_extensions.data_transaction_commission_percent_t p :: post →
      (∀ e ∈ pre, e.is_commission = false) → get_commission_percent dc params = p) ∧
    ((∀ e ∈ params.extensions, e.is_commission = false) → get_commission_percent dc params = dc) ∧
    get_commission_percent dc (⟨[]⟩ : chain_parameters C V O) = dc ∧
    (∀ pre p post,
      params.extensions = pre ++ future_extensions.vm_cpu_limit_t p :: post →
      (∀ e ∈ pre, e.is_cpu_limit = false) → get_cpu_limit dv params = p) ∧
    ((∀ e ∈ params.extensions, e.is_cpu_limit = false) → get_cpu_limit dv params = dv) ∧
    get_cpu_limit dv (⟨[]⟩ : chain_parameters C V O) = dv := by
  refine ⟨?_, ?_, rfl, ?_, ?_, rfl⟩
  · intro pre p post hext hpre
    unfold get_commission_percent
    rw [hext]
    exact get_commission_percent_loop_first dc p pre post hpre
  · intro h
    exact get_commission_percent_loop_absent dc params.extensions h
  · intro pre p post hext hpre
    unfold get_cpu_limit
    rw [hext]
    exact get_cpu_limit_loop_first dv p pre post hpre
  · intro h
    exact get_cpu_limit_loop_absent dv params.extensions h

/-- Witness of `get_extension_first_match_or_default`: in the list
`[other, cpu 5, commission 10, commission 20, cpu 6]` the commission lookup
gives 10 and the cpu lookup gives 5. -/
theorem get_extension_first_match_or_default_witness :
    get_commission_percent 1000
      (⟨[.other 0, .vm_cpu_limit_t 5, .data_transaction_commission_percent_t 10,
         .data_transaction_commission_percent_t 20, .vm_cpu_limit_t 6]⟩ :
        chain_parameters Nat Nat Nat) = 10 ∧
    get_cpu_limit 2000
      (⟨[.other 0, .vm_cpu_limit_t 5, .data_transaction_commission_percent_t 10,
         .data_transaction_commission_percent_t 20, .vm_cpu_limit_t 6]⟩ :
        chain_parameters Nat Nat Nat) = 5 :=
  ⟨(get_extension_first_match_or_default 1000 2000 _).1
      [.other 0, .vm_cpu_limit_t 5] 10
      [.data_transaction_commission_percent_t 20, .vm_cpu_limit_t 6] rfl (by decide),
   (get_extension_first_match_or_default 1000 2000 _).2.2.2.1
      [.other 0] 5
      [.data_transaction_commission_percent_t 10,
        .data_transaction_commission_percent_t 20, .vm_cpu_limit_t 6] rfl (by decide)⟩

/-- Claim C8: for a 32-bit head block number `h` and an undo stack of size `d`,
`last_non_undoable_block_num` is `h - d` reduced modulo `2^32` (a value is
returned also when `d > h`), which is exactly `h - d` whenever `d ≤ h`. -/
theorem last_non_undoable_block_num_eq (db : database)
    (hh : db.head_block_number < 2 ^ 32) (hd : db.undo_db_size < 2 ^ 64) :
    ((db.last_non_undoable_block_num : Int)
      = ((db.head_block_number : Int) - (db.undo_db_size : Int)) % 2 ^ 32) ∧
    (db.undo_db_size ≤ db.head_block_number →
      db.last_non_undoable_block_num = db.head_block_number - db.undo_db_size) := by
  unfold database.last_non_undoable_block_num database.head_block_num
  norm_num at hh hd ⊢
  omega

/-- Witness of `last_non_undoable_block_num_eq`: head block 10 with 3 open
sessions gives 7, and with 11 open sessions it gives `2^32 - 1`. -/
theorem last_non_undoable_block_num_eq_witness :
    (((⟨10, 11⟩ : database).last_non_undoable_block_num : Int)
      = ((10 : Int) - 11) % 2 ^ 32) ∧
    (⟨10, 3⟩ : database).last_non_undoable_block_num = 10 - 3 :=
  ⟨(last_non_undoable_block_num_eq ⟨10, 11⟩ (by decide) (by decide)).1,
   (last_non_undoable_block_num_eq ⟨10, 3⟩ (by decide) (by decide)).2 (by decide)⟩

/-! ## Theorems: the redpacket contract -/

theorem wrap_int64_eq (x : Int) (h0 : -2 ^ 63 ≤ x) (h1 : x < 2 ^ 63) : wrap_int64 x = x := by
  unfold wrap_int64
  omega

theorem to_uint64_cast (x : Int) (h0 : 0 ≤ x) (h1 : x < 2 ^ 64) :
    ((to_uint64 x : Nat) : Int) = x := by
  unfold to_uint64
  omega

theorem share_of_bounds (hash0 : Nat) : 1 ≤ share_of hash0 ∧ share_of hash0 ≤ 255 := by
  unfold share_of
  split <;> omega

theorem create_shares_length (ctx : action_context) (pubkey : String) (number : Nat) :
    (create_shares ctx pubkey number).length = number := by
  simp [create_shares]

theorem create_shares_bounds (ctx : action_context) (pubkey : String) (number : Nat) :
    ∀ x ∈ create_shares ctx pubkey number, 1 ≤ x ∧ x ≤ 255 := by
  intro x hx
  obtain ⟨i, -, rfl⟩ := List.mem_map.1 hx
  exact share_of_bounds _

theorem sum_take_le_sum (shares : List Int) (h : ∀ x ∈ shares, 0 ≤ x) (k : Nat) :
    (shares.take k).sum ≤ shares.sum := by
  have h1 := List.sum_take_add_sum_drop shares k
  have h2 : 0 ≤ (shares.drop k).sum :=
    List.sum_nonneg (fun x hx => h x (List.mem_of_mem_drop hx))
  omega

/-- Invariant of the splitting loop of `create`: with non-overflowing inputs
every pass succeeds, and the amounts handed out so far never exceed the total. -/
theorem create_split_loop_ok (T : Int) (shares : List Int)
    (hT0 : 0 ≤ T) (hT : T * 255 < 2 ^ 63) (hsh : ∀ x ∈ shares, 1 ≤ x ∧ x ≤ 255) :
    ∀ (todo i : Nat) (sub : List Nat) (used : Int),
      i + todo ≤ shares.length →
      used = ((sub.sum : Nat) : Int) →
      used * shares.sum ≤ T * (shares.take i).sum →
      (∀ x ∈ sub, ((x : Nat) : Int) ≤ T) →
      ∃ sub1 used1,
        create_split_loop T shares shares.sum todo i sub used = .ok (sub1, used1) ∧
        sub1.length = sub.length + todo ∧
        used1 = ((sub1.sum : Nat) : Int) ∧
        used1 * shares.sum ≤ T * (shares.take (i + todo)).sum ∧
        (∀ x ∈ sub1, ((x : Nat) : Int) ≤ T) := by
  intro todo
  induction todo with
  | zero =>
    intro i sub used _ hused hinv hle
    exact ⟨sub, used, rfl, rfl, hused, hinv, hle⟩
  | succ todo ih =>
    intro i sub used hi hused hinv hle
    have hilt : i < shares.length := by omega
    have hmem : shares[i] ∈ shares := List.getElem_mem hilt
    have hb := hsh _ hmem
    have hnn : ∀ x ∈ shares, 0 ≤ x := fun x hx => by have := (hsh x hx).1; omega
    have hSge : shares[i] ≤ shares.sum := List.single_le_sum hnn _ hmem
    have hSpos : 0 < shares.sum := by omega
    have hmul0 : 0 ≤ T * shares[i] := Int.mul_nonneg hT0 (by omega)
    have hmul1 : T * shares[i] ≤ T * 255 := Int.mul_le_mul_of_nonneg_left hb.2 hT0
    have hT63 : T < 2 ^ 63 := by omega
    have hw1 : wrap_int64 (T * shares[i]) = T * shares[i] :=
      wrap_int64_eq _ (by omega) (by omega)
    have hq0 : 0 ≤ T * shares[i] / shares.sum := Int.ediv_nonneg hmul0 (by omega)
    have hqT : T * shares[i] / shares.sum ≤ T :=
      Int.ediv_le_of_le_mul hSpos (Int.mul_le_mul_of_nonneg_left hSge hT0)
    have hqS : T * shares[i] / shares.sum * shares.sum ≤ T * shares[i] :=
      Int.ediv_mul_le _ (by omega)
    have hdiv : Int.tdiv (T * shares[i]) shares.sum = T * shares[i] / shares.sum :=
      Int.tdiv_eq_ediv hmul0 (by omega)
    have hw2 : wrap_int64 (T * shares[i] / shares.sum) = T * shares[i] / shares.sum :=
      wrap_int64_eq _ (by omega) (by omega)
    have htake : (shares.take (i + 1)).sum = (shares.take i).sum + shares[i] :=
      List.sum_take_succ shares i hilt
    have hinv1 : (used + T * shares[i] / shares.sum) * shares.sum
        ≤ T * (shares.take (i + 1)).sum := by
      rw [htake, add_mul, mul_add]
      omega
    have hbound : (used + T * shares[i] / shares.sum) * shares.sum ≤ T * shares.sum :=
      le_trans hinv1 (Int.mul_le_mul_of_nonneg_left (sum_take_le_sum shares hnn _) hT0)
    have hsumT : used + T * shares[i] / shares.sum ≤ T :=
      le_of_mul_le_mul_right hbound hSpos
    have hused0 : 0 ≤ used := by rw [hused]; exact Int.ofNat_nonneg _
    have hw3 : wrap_int64 (used + T * shares[i] / shares.sum)
        = used + T * shares[i] / shares.sum :=
      wrap_int64_eq _ (by omega) (by omega)
    have hcast := to_uint64_cast (T * shares[i] / shares.sum) hq0 (by omega)
    have hstep : create_split_loop T shares shares.sum (todo + 1) i sub used
        = create_split_loop T shares shares.sum todo (i + 1)
            (sub ++ [to_uint64 (T * shares[i] / shares.sum)])
            (used + T * shares[i] / shares.sum) := by
      simp only [create_split_loop, List.getElem?_eq_getElem hilt, if_neg (ne_of_gt hSpos),
        hw1, hdiv, hw2, hw3]
    obtain ⟨sub1, used1, hrun, hlen, hsum, hinv2, hle2⟩ :=
      ih (i + 1) (sub ++ [to_uint64 (T * shares[i] / shares.sum)])
        (used + T * shares[i] / shares.sum) (by omega)
        (by rw [List.sum_append, List.sum_singleton, Nat.cast_add, hcast, hused])
        hinv1
        (by
          intro x hx
          rcases List.mem_append.1 hx with h | h
          · exact hle x h
          · rw [List.mem_singleton] at h
            rw [h, hcast]; exact hqT)
    refine ⟨sub1, used1, ?_, ?_, hsum, ?_, hle2⟩
    · rw [hstep, hrun]
    · rw [hlen]; simp; omega
    · have : i + (todo + 1) = i + 1 + todo := by omega
      rw [this]; exact hinv2

theorem find_packet_ne_none_of_mem (self : redpacket) (key : Nat)
    (h : ∃ p ∈ self.packets, p.issuer = key) : self.find_packet key ≠ none := by
  obtain ⟨p, hp, hk⟩ := h
  unfold redpacket.find_packet
  intro hnone
  rw [List.find?_eq_none] at hnone
  exact hnone p hp (by simp [hk])

/-- Claim C9: when the sender already has a packet, `redpacket::create` fails
(its first assertion) and both tables are as they were, whatever the public
key, the number and the attached amount. -/
theorem create_fails_when_sender_has_packet (self : redpacket) (ctx : action_context)
    (pubkey : String) (number : Nat)
    (h : ∃ p ∈ self.packets, p.issuer = ctx.trx_sender) :
    (self.create ctx pubkey number).failed = some (.assertion "already has one redpacket") ∧
    (self.create ctx pubkey number).tables = self := by
  have hne := find_packet_ne_none_of_mem self ctx.trx_sender h
  cases hf : self.find_packet ctx.trx_sender with
  | none => exact absurd hf hne
  | some p =>
    simp [redpacket.create, hf]

/-- Witness of `create_fails_when_sender_has_packet`: sender 42 holds a packet
and asks for a second one. -/
theorem create_fails_when_sender_has_packet_witness :
    ((⟨[⟨42, "K", ⟨5, 1⟩, 1, [5]⟩], [⟨42, [⟨9, 1⟩]⟩]⟩ : redpacket).create
        ⟨42, 100, 1, 7, fun _ => 7⟩ "PUB" 3).failed
      = some (.assertion "already has one redpacket") ∧
    ((⟨[⟨42, "K", ⟨5, 1⟩, 1, [5]⟩], [⟨42, [⟨9, 1⟩]⟩]⟩ : redpacket).create
        ⟨42, 100, 1, 7, fun _ => 7⟩ "PUB" 3).tables
      = ⟨[⟨42, "K", ⟨5, 1⟩, 1, [5]⟩], [⟨42, [⟨9, 1⟩]⟩]⟩ :=
  create_fails_when_sender_has_packet ⟨[⟨42, "K", ⟨5, 1⟩, 1, [5]⟩], [⟨42, [⟨9, 1⟩]⟩]⟩
    ⟨42, 100, 1, 7, fun _ => 7⟩ "PUB" 3 ⟨⟨42, "K", ⟨5, 1⟩, 1, [5]⟩, by decide, rfl⟩

/-- What `create` stores for a sender without a packet when the number of
shares is between 1 and 1000 and the amount cannot overflow. -/
theorem create_adds_packet (self : redpacket) (ctx : action_context) (pubkey : String)
    (number : Nat) (hnew : self.find_packet ctx.trx_sender = none)
    (h1 : 1 ≤ number) (h2 : number ≤ 1000)
    (h0 : 0 ≤ ctx.action_asset_amount) (hov : ctx.action_asset_amount * 255 < 2 ^ 63) :
    ∃ p : packet,
      self.create ctx pubkey number
        = ⟨none, { packets := self.packets ++ [p], records := self.records }⟩ ∧
      p.issuer = ctx.trx_sender ∧ p.pub_key = pubkey ∧
      p.total_amount = ⟨ctx.action_asset_amount, ctx.action_asset_id⟩ ∧
      p.number = number ∧ p.subpackets.length = number ∧
      (∀ x ∈ p.subpackets, ((x : Nat) : Int) ≤ ctx.action_asset_amount) ∧
      ((p.subpackets.sum : Nat) : Int) = ctx.action_asset_amount := by
  have hlen := create_shares_length ctx pubkey number
  have hsh := create_shares_bounds ctx pubkey number
  have hnn : ∀ x ∈ create_shares ctx pubkey number, 0 ≤ x :=
    fun x hx => by have := (hsh x hx).1; omega
  have htodo : uint64_sub number 1 = number - 1 := by unfold uint64_sub; omega
  obtain ⟨sub1, used1, hrun, hlen1, hsum1, hinv1, hle1⟩ :=
    create_split_loop_ok ctx.action_asset_amount (create_shares ctx pubkey number) h0 hov hsh
      (number - 1) 0 [] 0 (by rw [hlen]; omega) (by simp) (by simp) (by simp)
  have h0lt : 0 < (create_shares ctx pubkey number).length := by rw [hlen]; omega
  have hmem0 : (create_shares ctx pubkey number)[0] ∈ create_shares ctx pubkey number :=
    List.getElem_mem h0lt
  have hSpos : 0 < (create_shares ctx pubkey number).sum := by
    have ha := List.single_le_sum hnn _ hmem0
    have hb := (hsh _ hmem0).1
    omega
  have hbound : used1 * (create_shares ctx pubkey number).sum
      ≤ ctx.action_asset_amount * (create_shares ctx pubkey number).sum :=
    le_trans hinv1 (Int.mul_le_mul_of_nonneg_left (sum_take_le_sum _ hnn _) h0)
  have husedT : used1 ≤ ctx.action_asset_amount := le_of_mul_le_mul_right hbound hSpos
  have hused0 : 0 ≤ used1 := by rw [hsum1]; exact Int.ofNat_nonneg _
  have hw : wrap_int64 (ctx.action_asset_amount - used1) = ctx.action_asset_amount - used1 :=
    wrap_int64_eq _ (by omega) (by omega)
  have hcast := to_uint64_cast (ctx.action_asset_amount - used1) (by omega) (by omega)
  refine ⟨{ issuer := ctx.trx_sender
            pub_key := pubkey
            total_amount := { amount := ctx.action_asset_amount, asset_id := ctx.action_asset_id }
            number := number % 2 ^ 32
            subpackets := sub1 ++ [to_uint64 (ctx.action_asset_amount - used1)] },
    ?_, rfl, rfl, rfl, ?_, ?_, ?_, ?_⟩
  · unfold redpacket.create
    rw [htodo]
    simp only [hnew, if_pos h2, hrun, hw]
  · show number % 2 ^ 32 = number
    omega
  · show (sub1 ++ [to_uint64 (ctx.action_asset_amount - used1)]).length = number
    rw [List.length_append, hlen1]
    simp
    omega
  · intro x hx
    have hx1 : x ∈ sub1 ++ [to_uint64 (ctx.action_asset_amount - used1)] := hx
    rcases List.mem_append.1 hx1 with h | h
    · exact hle1 x h
    · rw [List.mem_singleton] at h
      rw [h, hcast]
      omega
  · show (((sub1 ++ [to_uint64 (ctx.action_asset_amount - used1)]).sum : Nat) : Int)
      = ctx.action_asset_amount
    rw [List.sum_append, List.sum_singleton, Nat.cast_add, hcast, ← hsum1]
    omega

/-- Claim C10: for `1 ≤ number ≤ 1000`, a non-negative attached amount `T` with
`T * 255` inside `int64_t`, and any hash bytes, `redpacket::create` by a sender
without a packet succeeds and adds one packet with issuer the sender, the given
number, and exactly `number` subpackets, each at most `T`, whose sum is `T`. -/
theorem create_splits_exactly (self : redpacket) (ctx : action_context) (pubkey : String)
    (number : Nat) (hnew : self.find_packet ctx.trx_sender = none)
    (h1 : 1 ≤ number) (h2 : number ≤ 1000)
    (h0 : 0 ≤ ctx.action_asset_amount) (hov : ctx.action_asset_amount * 255 < 2 ^ 63) :
    ∃ p : packet,
      self.create ctx pubkey number
        = ⟨none, { packets := self.packets ++ [p], records := self.records }⟩ ∧
      p.issuer = ctx.trx_sender ∧ p.pub_key = pubkey ∧
      p.total_amount = ⟨ctx.action_asset_amount, ctx.action_asset_id⟩ ∧
      p.number = number ∧ p.subpackets.length = number ∧
      (∀ x ∈ p.subpackets, ((x : Nat) : Int) ≤ ctx.action_asset_amount) ∧
      ((p.subpackets.sum : Nat) : Int) = ctx.action_asset_amount :=
  create_adds_packet self ctx pubkey number hnew h1 h2 h0 hov

/-- Witness of `create_splits_exactly`: 100 units split in 3 shares with equal
hash bytes gives the subpackets 33, 33 and 34. -/
theorem create_splits_exactly_witness :
    ∃ p : packet,
      (⟨[], []⟩ : redpacket).create ⟨42, 100, 1, 7, fun _ => 7⟩ "PUB" 3
        = ⟨none, { packets := [] ++ [p], records := [] }⟩ ∧
      p.issuer = 42 ∧ p.pub_key = "PUB" ∧
      p.total_amount = ⟨100, 1⟩ ∧
      p.number = 3 ∧ p.subpackets.length = 3 ∧
      (∀ x ∈ p.subpackets, ((x : Nat) : Int) ≤ 100) ∧
      ((p.subpackets.sum : Nat) : Int) = 100 :=
  create_splits_exactly ⟨[], []⟩ ⟨42, 100, 1, 7, fun _ => 7⟩ "PUB" 3
    (by decide) (by decide) (by decide) (by decide) (by decide)

/-! ### Bit layout and injectivity of the decoding -/

theorem trim_right_if_append_dots (u : List Char) :
    ∃ n, u = trim_right_if (fun c => c == '.') u ++ List.replicate n '.' := by
  refine ⟨(u.reverse.takeWhile (fun c => c == '.')).length, ?_⟩
  have h := List.takeWhile_append_dropWhile (fun c => c == '.') u.reverse
  have h2 : u.reverse.takeWhile (fun c => c == '.')
      = List.replicate (u.reverse.takeWhile (fun c => c == '.')).length '.' := by
    apply List.eq_replicate_iff.2
    refine ⟨rfl, ?_⟩
    intro c hc
    simpa using List.mem_takeWhile_imp hc
  have h3 : u = (u.reverse.dropWhile (fun c => c == '.')).reverse
      ++ (u.reverse.takeWhile (fun c => c == '.')).reverse := by
    rw [← List.reverse_append, h, List.reverse_reverse]
  rw [h2, List.reverse_replicate] at h3
  exact h3

theorem to_string_untrimmed_of_to_string (v : Nat) :
    to_string_untrimmed v
      = name.to_string ⟨v⟩ ++ List.replicate (13 - (name.to_string ⟨v⟩).length) '.' := by
  obtain ⟨n, hn⟩ := trim_right_if_append_dots (to_string_untrimmed v)
  have hts : trim_right_if (fun c => c == '.') (to_string_untrimmed v)
      = name.to_string ⟨v⟩ := rfl
  rw [hts] at hn
  have hl := congrArg List.length hn
  rw [to_string_untrimmed_length, List.length_append, List.length_replicate] at hl
  have hn' : 13 - (name.to_string ⟨v⟩).length = n := by omega
  rw [hn']
  exact hn

/-- Claim C14: for every value `v` the untrimmed string `u` has 13 characters,
`u[k]` is `charmap[(v >> (59 - 5*k)) & 31]` for `k = 0..11`, `u[12]` is
`charmap[v & 15]`, and the returned string is `u` with its trailing '.'
characters removed: `u` is the result followed by '.' only, and the result does
not end in '.'. -/
theorem name_to_string_bit_layout (v : Nat) :
    (to_string_untrimmed v).length = 13 ∧
    (∀ k < 12, (to_string_untrimmed v)[k]?
      = some (charmap.getD ((v >>> (59 - 5 * k)) &&& 31) (Char.ofNat 0))) ∧
    (to_string_untrimmed v)[12]? = some (charmap.getD (v &&& 15) (Char.ofNat 0)) ∧
    to_string_untrimmed v
      = name.to_string ⟨v⟩ ++ List.replicate (13 - (name.to_string ⟨v⟩).length) '.' ∧
    (name.to_string ⟨v⟩).getLast? ≠ some '.' := by
  have h15 : ∀ x : Nat, x &&& 15 = x % 16 := fun x => Nat.and_pow_two_sub_one_eq_mod x 4
  have h31 : ∀ x : Nat, x &&& 31 = x % 32 := fun x => Nat.and_pow_two_sub_one_eq_mod x 5
  refine ⟨to_string_untrimmed_length v, ?_, ?_, to_string_untrimmed_of_to_string v,
    name_to_string_getLast v⟩
  · intro k hk
    rw [to_string_untrimmed_eq]
    interval_cases k <;>
      norm_num [List.range, List.range.loop, symbol_at, h31, Nat.shiftRight_eq_div_pow]
  · rw [to_string_untrimmed_eq]
    norm_num [List.range, List.range.loop, symbol_at, h15]

theorem charmap_indexOf_getD :
    ∀ i < 32, charmap.indexOf (charmap.getD i (Char.ofNat 0)) = i := by
  decide

theorem charmap_getD_injective (i : Nat) (hi : i < 32) (j : Nat) (hj : j < 32)
    (h : charmap.getD i (Char.ofNat 0) = charmap.getD j (Char.ofNat 0)) : i = j := by
  rw [← charmap_indexOf_getD i hi, h, charmap_indexOf_getD j hj]

theorem symbol_at_eq_of_untrimmed_eq (v w : Nat)
    (h : to_string_untrimmed v = to_string_untrimmed w) (k : Nat) (hk : k < 13) :
    symbol_at v k = symbol_at w k := by
  rw [to_string_untrimmed_eq, to_string_untrimmed_eq] at h
  have h1 := congrArg (fun l => l[k]?) h
  simp only [List.getElem?_map, List.getElem?_range hk, Option.map_some'] at h1
  exact charmap_getD_injective _ (symbol_at_lt v k) _ (symbol_at_lt w k) (Option.some.inj h1)

theorem div_eq_of_groups (x y : Nat) :
    ∀ n, (∀ j < n, x / 2 ^ (4 + 5 * j) % 32 = y / 2 ^ (4 + 5 * j) % 32) →
      x / 2 ^ (4 + 5 * n) = y / 2 ^ (4 + 5 * n) → x / 2 ^ 4 = y / 2 ^ 4 := by
  intro n
  induction n with
  | zero => intro _ h; simpa using h
  | succ n ih =>
    intro hg htop
    apply ih (fun j hj => hg j (by omega))
    have hm := hg n (by omega)
    have he : 4 + 5 * (n + 1) = (4 + 5 * n) + 5 := by ring
    rw [he, pow_add, ← Nat.div_div_eq_div_mul, ← Nat.div_div_eq_div_mul] at htop
    generalize x / 2 ^ (4 + 5 * n) = a at hm htop ⊢
    generalize y / 2 ^ (4 + 5 * n) = b at hm htop ⊢
    norm_num at htop
    omega

theorem eq_of_symbol_at_eq (v w : Nat) (hv : v < 2 ^ 64) (hw : w < 2 ^ 64)
    (h : ∀ k < 13, symbol_at v k = symbol_at w k) : v = w := by
  have h12 : v % 16 = w % 16 := by
    have := h 12 (by norm_num)
    simpa [symbol_at] using this
  have hdiv : v / 2 ^ 4 = w / 2 ^ 4 := by
    apply div_eq_of_groups v w 12
    · intro j hj
      have := h (11 - j) (by omega)
      unfold symbol_at at this
      rw [if_neg (by omega), if_neg (by omega)] at this
      have he : 59 - 5 * (11 - j) = 4 + 5 * j := by omega
      rwa [he] at this
    · rw [Nat.div_eq_of_lt (by simpa using hv), Nat.div_eq_of_lt (by simpa using hw)]
  norm_num at hdiv
  omega

/-- Claim C18: two 64-bit values with the same string conversion are equal. -/
theorem name_to_string_injective (v1 v2 : Nat) (h1 : v1 < 2 ^ 64) (h2 : v2 < 2 ^ 64)
    (h : name.to_string ⟨v1⟩ = name.to_string ⟨v2⟩) : v1 = v2 := by
  have hu : to_string_untrimmed v1 = to_string_untrimmed v2 := by
    rw [to_string_untrimmed_of_to_string v1, to_string_untrimmed_of_to_string v2, h]
  exact eq_of_symbol_at_eq v1 v2 h1 h2 (symbol_at_eq_of_untrimmed_eq v1 v2 hu)

/-- Witness of `name_to_string_injective` at two ways of writing the value
whose string conversion is "3". -/
theorem name_to_string_injective_witness : 3 * 2 ^ 59 = 2 ^ 60 + 2 ^ 59 :=
  name_to_string_injective (3 * 2 ^ 59) (2 ^ 60 + 2 ^ 59) (by decide) (by decide) (by decide)

/-! ### Lookups in a table after `emplace`, `modify` and `erase` -/

theorem table_modify_cons_pos {α : Type} (pk : α → Nat) (f : α → α) (key : Nat)
    (r : α) (rows : List α) (h : pk r = key) :
    table_modify pk f key (r :: rows) = f r :: rows := by
  have hb : (pk r == key) = true := by simpa using h
  simp only [table_modify, hb, if_true]

theorem table_modify_cons_neg {α : Type} (pk : α → Nat) (f : α → α) (key : Nat)
    (r : α) (rows : List α) (h : pk r ≠ key) :
    table_modify pk f key (r :: rows) = r :: table_modify pk f key rows := by
  have hb : (pk r == key) = false := by simpa using h
  simp only [table_modify, hb, Bool.false_eq_true, if_false]

theorem find_table_modify {α : Type} (pk : α → Nat) (f : α → α) (key : Nat)
    (hf : ∀ r, pk r = key → pk (f r) = key) (k : Nat) (rows : List α) :
    (table_modify pk f key rows).find? (fun r => pk r == k)
      = if k = key then (rows.find? (fun r => pk r == key)).map f
        else rows.find? (fun r => pk r == k) := by
  induction rows with
  | nil => simp [table_modify]
  | cons r rows ih =>
    by_cases hr : pk r = key
    · rw [table_modify_cons_pos pk f key r rows hr]
      have hfr := hf r hr
      by_cases hk : k = key
      · subst hk
        rw [if_pos rfl, List.find?_cons_of_pos _ (by simpa using hfr),
          List.find?_cons_of_pos _ (by simpa using hr)]
        rfl
      · have hne : ¬ key = k := fun h => hk h.symm
        rw [if_neg hk, List.find?_cons_of_neg _ (by simpa [hfr] using hne),
          List.find?_cons_of_neg _ (by simpa [hr] using hne)]
    · rw [table_modify_cons_neg pk f key r rows hr]
      by_cases hk : k = key
      · subst hk
        rw [if_pos rfl, List.find?_cons_of_neg _ (by simpa using hr),
          List.find?_cons_of_neg _ (by simpa using hr), ih, if_pos rfl]
      · rw [if_neg hk]
        by_cases hrk : pk r = k
        · rw [List.find?_cons_of_pos _ (by simpa using hrk),
            List.find?_cons_of_pos _ (by simpa using hrk)]
        · rw [List.find?_cons_of_neg _ (by simpa using hrk),
            List.find?_cons_of_neg _ (by simpa using hrk), ih, if_neg hk]

theorem map_table_modify {α : Type} (pk : α → Nat) (f : α → α) (key : Nat)
    (hf : ∀ r, pk r = key → pk (f r) = key) (rows : List α) :
    (table_modify pk f key rows).map pk = rows.map pk := by
  induction rows with
  | nil => rfl
  | cons r rows ih =>
    by_cases hr : pk r = key
    · rw [table_modify_cons_pos pk f key r rows hr, List.map_cons, List.map_cons, hf r hr, hr]
    · rw [table_modify_cons_neg pk f key r rows hr, List.map_cons, List.map_cons, ih]

theorem find_table_erase_ne {α : Type} (pk : α → Nat) (key k : Nat) (hk : k ≠ key)
    (rows : List α) :
    (table_erase pk key rows).find? (fun r => pk r == k)
      = rows.find? (fun r => pk r == k) := by
  induction rows with
  | nil => simp [table_erase]
  | cons r rows ih =>
    unfold table_erase at ih ⊢
    by_cases hr : pk r = key
    · have hb1 : (pk r == key) = true := by simpa using hr
      have hb2 : (pk r == k) = false := by
        simp only [beq_eq_false_iff_ne, ne_eq]
        exact fun h => hk (h.symm.trans hr)
      simp only [List.eraseP_cons, List.find?_cons, hb1, hb2, cond_true]
    · have hb1 : (pk r == key) = false := by simpa using hr
      by_cases hrk : pk r = k
      · have hb2 : (pk r == k) = true := by simpa using hrk
        simp only [List.eraseP_cons, List.find?_cons, hb1, hb2, cond_false]
      · have hb2 : (pk r == k) = false := by simpa using hrk
        simp only [List.eraseP_cons, List.find?_cons, hb1, hb2, cond_false, ih]

theorem find_table_erase_self {α : Type} (pk : α → Nat) (key : Nat) (rows : List α)
    (hu : (rows.map pk).Nodup) :
    (table_erase pk key rows).find? (fun r => pk r == key) = none := by
  induction rows with
  | nil => simp [table_erase]
  | cons r rows ih =>
    unfold table_erase at ih ⊢
    rw [List.map_cons, List.nodup_cons] at hu
    by_cases hr : pk r = key
    · simp only [List.eraseP_cons, hr, beq_self_eq_true, cond_true]
      rw [List.find?_eq_none]
      intro x hx hxk
      apply hu.1
      rw [hr]
      exact List.mem_map.2 ⟨x, hx, by simpa using hxk⟩
    · simp [List.eraseP_cons, hr, List.find?_cons, ih hu.2]

theorem nodup_table_erase {α : Type} (pk : α → Nat) (key : Nat) (rows : List α)
    (hu : (rows.map pk).Nodup) : ((table_erase pk key rows).map pk).Nodup :=
  List.Nodup.sublist (List.Sublist.map pk (List.eraseP_sublist rows)) hu

theorem find_emplace {α : Type} (pk : α → Nat) (x : α) (k : Nat) (rows : List α) :
    (rows ++ [x]).find? (fun r => pk r == k)
      = match rows.find? (fun r => pk r == k) with
        | some r => some r
        | none => if pk x = k then some x else none := by
  rw [List.find?_append]
  cases rows.find? (fun r => pk r == k) with
  | some r => rfl
  | none =>
    by_cases h : pk x = k <;> simp [List.find?_cons, h]

theorem nodup_emplace {α : Type} (pk : α → Nat) (x : α) (rows : List α)
    (hu : (rows.map pk).Nodup) (hx : rows.find? (fun r => pk r == pk x) = none) :
    ((rows ++ [x]).map pk).Nodup := by
  rw [List.map_append, List.map_singleton]
  apply List.Nodup.append hu (List.nodup_singleton _)
  rw [List.disjoint_singleton]
  intro hmem
  obtain ⟨r, hr, hrk⟩ := List.mem_map.1 hmem
  rw [List.find?_eq_none] at hx
  exact hx r hr (by simpa using hrk)

theorem find_some_key {α : Type} (pk : α → Nat) (k : Nat) (rows : List α) (r : α)
    (h : rows.find? (fun r => pk r == k) = some r) : pk r = k ∧ r ∈ rows := by
  have h1 := List.find?_some h
  exact ⟨by simpa using h1, List.mem_of_find?_eq_some h⟩

theorem find_of_mem_nodup {α : Type} (pk : α → Nat) (rows : List α) (r : α)
    (hu : (rows.map pk).Nodup) (hr : r ∈ rows) :
    rows.find? (fun x => pk x == pk r) = some r := by
  induction rows with
  | nil => cases hr
  | cons a rows ih =>
    rw [List.map_cons, List.nodup_cons] at hu
    rcases List.mem_cons.1 hr with h | h
    · subst h; simp
    · have hne : pk a ≠ pk r := by
        intro he
        apply hu.1
        rw [he]
        exact List.mem_map.2 ⟨r, h, rfl⟩
      simp [List.find?_cons, hne, ih hu.2 h]

/-! ### What `open`, `close` and `create` do to the lookups -/

theorem open_update_failed_iff (t : redpacket) (sender : Nat) (host : host_state)
    (pkt : packet) (packet_issuer timestamp : Nat) :
    (redpacket.open_update t sender host pkt packet_issuer timestamp).failed = none
      ↔ pkt.subpackets ≠ [] := by
  unfold redpacket.open_update
  by_cases h : pkt.subpackets.length = 0
  · rw [dif_pos h]
    have : pkt.subpackets = [] := List.length_eq_zero.1 h
    simp [this]
  · rw [dif_neg h]
    have hne : pkt.subpackets ≠ [] := fun he => h (by rw [he]; rfl)
    simp only [hne, ne_eq, not_false_eq_true, iff_true]
    split
    · rfl
    · split <;> rfl

theorem open_update_tables (t : redpacket) (sender : Nat) (host : host_state)
    (pkt : packet) (packet_issuer timestamp amount : Nat)
    (ha : pkt.subpackets[timestamp % pkt.subpackets.length]? = some amount) :
    (redpacket.open_update t sender host pkt packet_issuer timestamp).tables
      = if (pkt.subpackets.eraseIdx (timestamp % pkt.subpackets.length)).isEmpty then
          { packets := table_erase packet.issuer packet_issuer
              (table_modify packet.issuer
                (fun o => { o with subpackets :=
                  o.subpackets.eraseIdx (timestamp % pkt.subpackets.length) })
                packet_issuer t.packets)
            records := table_erase record.packet_issuer packet_issuer
              (table_modify record.packet_issuer
                (fun o => { packet_issuer := packet_issuer,
                            accounts := o.accounts ++ [{ account_id := sender, amount := amount }] })
                packet_issuer t.records) }
        else
          { packets := table_modify packet.issuer
              (fun o => { o with subpackets :=
                o.subpackets.eraseIdx (timestamp % pkt.subpackets.length) })
              packet_issuer t.packets
            records := table_modify record.packet_issuer
              (fun o => { packet_issuer := packet_issuer,
                          accounts := o.accounts ++ [{ account_id := sender, amount := amount }] })
              packet_issuer t.records } := by
  have hlt : timestamp % pkt.subpackets.length < pkt.subpackets.length := by
    by_contra hc
    rw [List.getElem?_eq_none (by omega)] at ha
    cases ha
  have h : ¬ pkt.subpackets.length = 0 := by omega
  have hget : pkt.subpackets.get ⟨timestamp % pkt.subpackets.length,
      Nat.mod_lt _ (Nat.pos_of_ne_zero h)⟩ = amount := by
    rw [List.getElem?_eq_getElem hlt] at ha
    exact Option.some.inj ha
  unfold redpacket.open_update
  rw [dif_neg h]
  simp only [hget]
  split
  · rfl
  · split <;> rfl

theorem open_update_lookup (t : redpacket) (sender : Nat) (host : host_state)
    (pkt : packet) (packet_issuer timestamp amount : Nat) (rec0 : record)
    (hu : t.keys_unique)
    (hp : t.find_packet packet_issuer = some pkt)
    (hr : t.find_record packet_issuer = some rec0)
    (ha : pkt.subpackets[timestamp % pkt.subpackets.length]? = some amount) :
    (redpacket.open_update t sender host pkt packet_issuer timestamp).tables.keys_unique ∧
    (∀ k, k ≠ packet_issuer →
      (redpacket.open_update t sender host pkt packet_issuer timestamp).tables.find_packet k
        = t.find_packet k ∧
      (redpacket.open_update t sender host pkt packet_issuer timestamp).tables.find_record k
        = t.find_record k) ∧
    (pkt.subpackets.eraseIdx (timestamp % pkt.subpackets.length) = [] →
      (redpacket.open_update t sender host pkt packet_issuer timestamp).tables.find_packet
        packet_issuer = none ∧
      (redpacket.open_update t sender host pkt packet_issuer timestamp).tables.find_record
        packet_issuer = none) ∧
    (pkt.subpackets.eraseIdx (timestamp % pkt.subpackets.length) ≠ [] →
      (redpacket.open_update t sender host pkt packet_issuer timestamp).tables.find_packet
        packet_issuer
        = some { pkt with subpackets :=
            pkt.subpackets.eraseIdx (timestamp % pkt.subpackets.length) } ∧
      (redpacket.open_update t sender host pkt packet_issuer timestamp).tables.find_record
        packet_issuer
        = some { packet_issuer := packet_issuer,
                 accounts := rec0.accounts ++ [{ account_id := sender, amount := amount }] }) := by
  have hfP : ∀ r : packet, r.issuer = packet_issuer → packet.issuer
      { r with subpackets := r.subpackets.eraseIdx (timestamp % pkt.subpackets.length) }
      = packet_issuer := fun _ h => h
  have hfR : ∀ r : record, r.packet_issuer = packet_issuer → record.packet_issuer
      { packet_issuer := packet_issuer,
        accounts := r.accounts ++ [{ account_id := sender, amount := amount }] }
      = packet_issuer := fun _ _ => rfl
  have hmP := map_table_modify packet.issuer _ packet_issuer hfP t.packets
  have hmR := map_table_modify record.packet_issuer _ packet_issuer hfR t.records
  have hfindP := fun k => find_table_modify packet.issuer _ packet_issuer hfP k t.packets
  have hfindR := fun k => find_table_modify record.packet_issuer _ packet_issuer hfR k t.records
  rw [open_update_tables t sender host pkt packet_issuer timestamp amount ha]
  unfold redpacket.find_packet at hp
  unfold redpacket.find_record at hr
  by_cases he : pkt.subpackets.eraseIdx (timestamp % pkt.subpackets.length) = []
  · have hemp : (pkt.subpackets.eraseIdx (timestamp % pkt.subpackets.length)).isEmpty = true := by
      rw [he]; rfl
    rw [if_pos hemp]
    refine ⟨⟨nodup_table_erase _ _ _ (by rw [hmP]; exact hu.1),
      nodup_table_erase _ _ _ (by rw [hmR]; exact hu.2)⟩, ?_, ?_, fun h => absurd he h⟩
    · intro k hk
      simp only [redpacket.find_packet, redpacket.find_record]
      rw [find_table_erase_ne _ _ _ hk, find_table_erase_ne _ _ _ hk, hfindP k, hfindR k,
        if_neg hk, if_neg hk]
      exact ⟨rfl, rfl⟩
    · intro _
      simp only [redpacket.find_packet, redpacket.find_record]
      exact ⟨find_table_erase_self _ _ _ (by rw [hmP]; exact hu.1),
        find_table_erase_self _ _ _ (by rw [hmR]; exact hu.2)⟩
  · have hemp : ¬ (pkt.subpackets.eraseIdx (timestamp % pkt.subpackets.length)).isEmpty = true := by
      rw [List.isEmpty_iff]; exact he
    rw [if_neg hemp]
    refine ⟨⟨by show (List.map packet.issuer _).Nodup; rw [hmP]; exact hu.1,
      by show (List.map record.packet_issuer _).Nodup; rw [hmR]; exact hu.2⟩,
      ?_, fun h => absurd h he, ?_⟩
    · intro k hk
      simp only [redpacket.find_packet, redpacket.find_record]
      rw [hfindP k, hfindR k, if_neg hk, if_neg hk]
      exact ⟨rfl, rfl⟩
    · intro _
      simp only [redpacket.find_packet, redpacket.find_record]
      rw [hfindP packet_issuer, hfindR packet_issuer, if_pos rfl, if_pos rfl, hp, hr]
      exact ⟨rfl, rfl⟩

theorem find_record_emplace (self : redpacket) (packet_issuer k : Nat)
    (hr : self.find_record packet_issuer = none) :
    ({ self with records := self.records ++ [{ packet_issuer := packet_issuer, accounts := [] }] }
        : redpacket).find_record k
      = if k = packet_issuer then some { packet_issuer := packet_issuer, accounts := [] }
        else self.find_record k := by
  unfold redpacket.find_record at hr ⊢
  rw [find_emplace record.packet_issuer]
  by_cases hk : k = packet_issuer
  · subst hk
    rw [hr, if_pos rfl]
  · rw [if_neg hk]
    cases self.records.find? (fun r => r.packet_issuer == k) with
    | some r => rfl
    | none =>
      have : ¬ packet_issuer = k := fun h => hk h.symm
      simp [this]

/-- What a finished call of `open` has done, in terms of the lookups. -/
theorem open_lookup (self : redpacket) (ctx : action_context) (host : host_state)
    (packet_issuer : Nat) (sig : String) (timestamp : Nat) (hu : self.keys_unique)
    (hok : (self.open ctx host packet_issuer sig timestamp).failed = none) :
    ∃ pkt amount,
      self.find_packet packet_issuer = some pkt ∧
      pkt.subpackets[timestamp % pkt.subpackets.length]? = some amount ∧
      (∀ r, self.find_record packet_issuer = some r →
        ∀ a ∈ r.accounts, a.account_id ≠ ctx.trx_sender) ∧
      (self.open ctx host packet_issuer sig timestamp).tables.keys_unique ∧
      (∀ k, k ≠ packet_issuer →
        (self.open ctx host packet_issuer sig timestamp).tables.find_packet k
          = self.find_packet k ∧
        (self.open ctx host packet_issuer sig timestamp).tables.find_record k
          = self.find_record k) ∧
      (pkt.subpackets.eraseIdx (timestamp % pkt.subpackets.length) = [] →
        (self.open ctx host packet_issuer sig timestamp).tables.find_packet packet_issuer = none ∧
        (self.open ctx host packet_issuer sig timestamp).tables.find_record packet_issuer
          = none) ∧
      (pkt.subpackets.eraseIdx (timestamp % pkt.subpackets.length) ≠ [] →
        (self.open ctx host packet_issuer sig timestamp).tables.find_packet packet_issuer
          = some { pkt with subpackets :=
              pkt.subpackets.eraseIdx (timestamp % pkt.subpackets.length) } ∧
        (self.open ctx host packet_issuer sig timestamp).tables.find_record packet_issuer
          = some { packet_issuer := packet_issuer,
                   accounts := ((self.find_record packet_issuer).map record.accounts).getD []
                     ++ [{ account_id := ctx.trx_sender, amount := amount }] }) := by
  cases hp : self.find_packet packet_issuer with
  | none =>
    simp [redpacket.open, hp] at hok
  | some pkt =>
    by_cases hsig : host.verify_signature (toString timestamp) sig pkt.pub_key = 0
    · have hamount : ∀ t : redpacket,
          (redpacket.open_update t ctx.trx_sender host pkt packet_issuer timestamp).failed = none →
          ∃ amount, pkt.subpackets[timestamp % pkt.subpackets.length]? = some amount := by
        intro t ht
        have hne := (open_update_failed_iff t _ host pkt packet_issuer timestamp).1 ht
        have hpos : 0 < pkt.subpackets.length := List.length_pos.2 hne
        exact ⟨_, List.getElem?_eq_getElem (Nat.mod_lt _ hpos)⟩
      cases hr : self.find_record packet_issuer with
      | none =>
        have hres : self.open ctx host packet_issuer sig timestamp
            = redpacket.open_update
                { self with records :=
                    self.records ++ [{ packet_issuer := packet_issuer, accounts := [] }] }
                ctx.trx_sender host pkt packet_issuer timestamp := by
          simp only [redpacket.open, hp, hsig, hr, if_true]
        rw [hres] at hok ⊢
        obtain ⟨amount, ha⟩ := hamount _ hok
        have hfr := find_record_emplace self packet_issuer
        have hu1 : ({ self with records :=
            self.records ++ [{ packet_issuer := packet_issuer, accounts := [] }] }
            : redpacket).keys_unique :=
          ⟨hu.1, nodup_emplace record.packet_issuer _ _ hu.2 hr⟩
        obtain ⟨h1, h2, h3, h4⟩ := open_update_lookup _ ctx.trx_sender host pkt packet_issuer
          timestamp amount { packet_issuer := packet_issuer, accounts := [] } hu1 hp
          (by rw [hfr packet_issuer hr, if_pos rfl]) ha
        refine ⟨pkt, amount, rfl, ha, (fun r hr' => by cases hr'), h1, ?_, h3, ?_⟩
        · intro k hk
          have := h2 k hk
          rw [hfr k hr, if_neg hk] at this
          exact this
        · intro he
          have := h4 he
          simpa using this
      | some rec =>
        by_cases hany : rec.accounts.any (fun act => act.account_id == ctx.trx_sender) = true
        · simp [redpacket.open, hp, hsig, hr, hany] at hok
        · have hres : self.open ctx host packet_issuer sig timestamp
              = redpacket.open_update self ctx.trx_sender host pkt packet_issuer timestamp := by
            simp only [redpacket.open, hp, hsig, hr, hany, if_true]
            simp
          rw [hres] at hok ⊢
          obtain ⟨amount, ha⟩ := hamount _ hok
          obtain ⟨h1, h2, h3, h4⟩ := open_update_lookup self ctx.trx_sender host pkt
            packet_issuer timestamp amount rec hu hp hr ha
          refine ⟨pkt, amount, rfl, ha, ?_, h1, h2, h3, ?_⟩
          · intro r hr' a hmem hid
            cases hr'
            apply hany
            rw [List.any_eq_true]
            exact ⟨a, hmem, by simpa using hid⟩
          · intro he
            have := h4 he
            simpa using this
    · simp [redpacket.open, hp, hsig] at hok

theorem create_eq_of_pos (self : redpacket) (ctx : action_context) (pubkey : String)
    (number : Nat) (h : number ≠ 0) :
    self.create ctx pubkey number
      = create_result self ctx pubkey number (self.find_packet ctx.trx_sender)
          (create_split_loop ctx.action_asset_amount (create_shares ctx pubkey number)
            (create_shares ctx pubkey number).sum ((number - 1) % 2 ^ 64) 0 [] 0) := by
  have htodo : uint64_sub number 1 = (number - 1) % 2 ^ 64 := by unfold uint64_sub; omega
  unfold redpacket.create create_result
  rw [htodo]

/-- With `number = 0` and no packet of the sender, `create` passes both
assertions and stops in the first pass of the splitting loop, which runs
`2^64 - 1` times and reads `shares[0]` of an empty vector. -/
theorem create_zero (self : redpacket) (ctx : action_context) (pubkey : String)
    (h : self.find_packet ctx.trx_sender = none) :
    self.create ctx pubkey 0 = { failed := some .out_of_range, tables := self } := by
  unfold redpacket.create
  simp only [h]
  rfl

theorem create_result_ok (self : redpacket) (ctx : action_context) (pubkey : String)
    (number : Nat) (found : Option packet) (split : Except failure (List Nat × Int))
    (hok : (create_result self ctx pubkey number found split).failed = none) :
    found = none ∧ number ≤ 1000 ∧
    ∃ subpackets share_used_sum, split = .ok (subpackets, share_used_sum) ∧
      (create_result self ctx pubkey number found split).tables
        = { packets := self.packets ++ [
              { issuer := ctx.trx_sender
                pub_key := pubkey
                total_amount := { amount := ctx.action_asset_amount,
                                  asset_id := ctx.action_asset_id }
                number := number % 2 ^ 32
                subpackets := subpackets ++
                  [to_uint64 (wrap_int64 (ctx.action_asset_amount - share_used_sum))] }]
            records := self.records } := by
  cases found with
  | some q => simp [create_result] at hok
  | none =>
    by_cases h2 : number ≤ 1000
    · cases split with
      | error e => simp [create_result, h2] at hok
      | ok res =>
        obtain ⟨subpackets, share_used_sum⟩ := res
        refine ⟨rfl, h2, subpackets, share_used_sum, rfl, ?_⟩
        simp only [create_result, if_pos h2]
    · simp [create_result, h2] at hok

/-- What a finished call of `create` has done: the sender had no packet, and
one packet with the sender as issuer has been added. -/
theorem create_lookup (self : redpacket) (ctx : action_context) (pubkey : String)
    (number : Nat) (hok : (self.create ctx pubkey number).failed = none) :
    self.find_packet ctx.trx_sender = none ∧
    ∃ p : packet,
      (self.create ctx pubkey number).tables
        = { packets := self.packets ++ [p], records := self.records } ∧
      p.issuer = ctx.trx_sender := by
  by_cases h0 : number = 0
  · subst h0
    cases hf : self.find_packet ctx.trx_sender with
    | none =>
      rw [create_zero self ctx pubkey hf] at hok
      cases hok
    | some q =>
      have hne : ∃ p ∈ self.packets, p.issuer = ctx.trx_sender := by
        unfold redpacket.find_packet at hf
        have := find_some_key packet.issuer ctx.trx_sender self.packets q hf
        exact ⟨q, this.2, this.1⟩
      have := find_packet_ne_none_of_mem self ctx.trx_sender hne
      exfalso
      revert hok
      unfold redpacket.create
      simp only [hf]
      intro hok
      cases hok
  · rw [create_eq_of_pos self ctx pubkey number h0] at hok ⊢
    obtain ⟨h1, _, subpackets, share_used_sum, _, h4⟩ :=
      create_result_ok self ctx pubkey number _ _ hok
    exact ⟨h1, _, h4, rfl⟩

/-- What a finished call of `close` has done, in terms of the lookups. -/
theorem close_lookup (self : redpacket) (ctx : action_context) (host : host_state)
    (hu : self.keys_unique) (hok : (self.close ctx host).failed = none) :
    (self.close ctx host).tables.keys_unique ∧
    (∀ k, k ≠ ctx.trx_sender →
      (self.close ctx host).tables.find_packet k = self.find_packet k ∧
      (self.close ctx host).tables.find_record k = self.find_record k) ∧
    (self.close ctx host).tables.find_packet ctx.trx_sender = none ∧
    (self.close ctx host).tables.find_record ctx.trx_sender = none := by
  cases hp : self.find_packet ctx.trx_sender with
  | none => simp [redpacket.close, hp] at hok
  | some pkt =>
    cases hr : self.find_record ctx.trx_sender with
    | none => simp [redpacket.close, hp, hr] at hok
    | some rec =>
      have hres : (self.close ctx host).tables
          = { packets := table_erase packet.issuer ctx.trx_sender self.packets
              records := table_erase record.packet_issuer ctx.trx_sender self.records } := by
        simp only [redpacket.close, hp, hr]
      rw [hres]
      refine ⟨⟨nodup_table_erase _ _ _ hu.1, nodup_table_erase _ _ _ hu.2⟩, ?_,
        find_table_erase_self _ _ _ hu.1, find_table_erase_self _ _ _ hu.2⟩
      intro k hk
      exact ⟨find_table_erase_ne _ _ _ hk _, find_table_erase_ne _ _ _ hk _⟩

/-- Primary keys stay unique in every reachable state. -/
theorem reachable_keys_unique (guard : action_context → Nat → Prop) (s : redpacket)
    (h : reachable guard s) : s.keys_unique := by
  induction h with
  | init => exact ⟨List.nodup_nil, List.nodup_nil⟩
  | by_create s ctx pubkey number _ _ hok ih =>
    obtain ⟨hnone, p, htab, hp⟩ := create_lookup s ctx pubkey number hok
    rw [htab]
    refine ⟨nodup_emplace packet.issuer p s.packets ih.1 ?_, ih.2⟩
    rw [hp]
    exact hnone
  | by_open s ctx host packet_issuer sig timestamp _ hok ih =>
    obtain ⟨_, _, _, _, _, h, _⟩ := open_lookup s ctx host packet_issuer sig timestamp ih hok
    exact h
  | by_close s ctx host _ hok ih =>
    exact (close_lookup s ctx host ih hok).1

/-! ### Claims about single calls of `open`, `close` and `create` -/

/-- Claim C19: when the sender has a packet but no record, `redpacket::close`
fails with "no redpacket", calls `withdraw_asset` not at all and leaves both
tables as they were. -/
theorem close_fails_without_record (self : redpacket) (ctx : action_context)
    (host : host_state) (pkt : packet)
    (hp : self.find_packet ctx.trx_sender = some pkt)
    (hr : self.find_record ctx.trx_sender = none) :
    (self.close ctx host).failed = some (.assertion "no redpacket") ∧
    (self.close ctx host).withdrawals = [] ∧
    (self.close ctx host).tables = self := by
  simp [redpacket.close, hp, hr]

/-- Witness of `close_fails_without_record`: issuer 42 closes a packet nobody
has opened. -/
theorem close_fails_without_record_witness :
    ((⟨[⟨42, "K", ⟨12, 1⟩, 2, [5, 7]⟩], []⟩ : redpacket).close
        ⟨42, 0, 0, 7, fun _ => 0⟩ ⟨fun _ _ _ => 0, 0, 0, 0⟩).failed
      = some (.assertion "no redpacket") ∧
    ((⟨[⟨42, "K", ⟨12, 1⟩, 2, [5, 7]⟩], []⟩ : redpacket).close
        ⟨42, 0, 0, 7, fun _ => 0⟩ ⟨fun _ _ _ => 0, 0, 0, 0⟩).withdrawals = [] ∧
    ((⟨[⟨42, "K", ⟨12, 1⟩, 2, [5, 7]⟩], []⟩ : redpacket).close
        ⟨42, 0, 0, 7, fun _ => 0⟩ ⟨fun _ _ _ => 0, 0, 0, 0⟩).tables
      = ⟨[⟨42, "K", ⟨12, 1⟩, 2, [5, 7]⟩], []⟩ :=
  close_fails_without_record ⟨[⟨42, "K", ⟨12, 1⟩, 2, [5, 7]⟩], []⟩
    ⟨42, 0, 0, 7, fun _ => 0⟩ ⟨fun _ _ _ => 0, 0, 0, 0⟩ ⟨42, "K", ⟨12, 1⟩, 2, [5, 7]⟩
    (by decide) (by decide)

/-- The amount `close` withdraws: the remaining subpackets added, in `int64_t`,
to what `left_amount` held on entry. -/
theorem close_withdrawals (self : redpacket) (ctx : action_context) (host : host_state)
    (pkt : packet) (rec : record)
    (hp : self.find_packet ctx.trx_sender = some pkt)
    (hr : self.find_record ctx.trx_sender = some rec) :
    (self.close ctx host).withdrawals
      = [{ to_account := ctx.trx_sender, asset_id := pkt.total_amount.asset_id,
           amount := pkt.subpackets.foldl
             (fun left_amount subpacket => wrap_int64 (left_amount + (subpacket : Int)))
             host.left_amount }] := by
  simp only [redpacket.close, hp, hr]

/-- Claim C12, the code at the failing input: issuer 42 has the remaining
subpackets 5 and 7 and a record, and the local `left_amount` holds 1 on entry;
`close` erases packet and record and withdraws 13, not 5 + 7 = 12. -/
theorem close_sum_starts_from_left_amount_on_entry :
    (⟨[⟨42, "K", ⟨100, 1⟩, 3, [5, 7]⟩], [⟨42, [⟨9, 88⟩]⟩]⟩ : redpacket).close
        ⟨42, 0, 0, 7, fun _ => 0⟩ ⟨fun _ _ _ => 0, 0, 0, 1⟩
      = ⟨none, ⟨[], []⟩, [⟨42, 1, 13⟩], true⟩ := by
  decide

/-- Claim C16, the code at the failing input: the packet of issuer 1 holds the
subpackets 10, 20, 70 and account 2 opens it.  With timestamp 0 the record gets
the amount 10 (index 0 before the erasure) while `withdraw_asset` gets 20, the
element at index 0 after the erasure.  With timestamp 2 the record gets 70 and
the read for `withdraw_asset` is at index 2 of a vector of size 2. -/
theorem open_withdraws_after_erase :
    (⟨[⟨1, "K", ⟨100, 1⟩, 3, [10, 20, 70]⟩], []⟩ : redpacket).open
        ⟨2, 0, 0, 7, fun _ => 0⟩ ⟨fun _ _ _ => 0, 99, 77, 0⟩ 1 "sig" 0
      = ⟨none, ⟨[⟨1, "K", ⟨100, 1⟩, 3, [20, 70]⟩], [⟨1, [⟨2, 10⟩]⟩]⟩, [⟨2, 1, 20⟩], false⟩ ∧
    (⟨[⟨1, "K", ⟨100, 1⟩, 3, [10, 20, 70]⟩], []⟩ : redpacket).open
        ⟨2, 0, 0, 7, fun _ => 0⟩ ⟨fun _ _ _ => 0, 99, 77, 0⟩ 1 "sig" 2
      = ⟨none, ⟨[⟨1, "K", ⟨100, 1⟩, 3, [10, 20]⟩], [⟨1, [⟨2, 70⟩]⟩]⟩, [⟨2, 1, 77⟩], true⟩ := by
  decide

/-- Claim C17, the code at the failing input: `create` with `number = 0` by a
sender without a packet passes both assertions; `shares` is empty, `shares_sum`
is 0, the splitting loop is set to run `2^64 - 1` times and its first pass reads
`shares[0]` and would divide by `shares_sum`. -/
theorem create_zero_shares_out_of_range :
    (⟨[], []⟩ : redpacket).find_packet 42 = none ∧ 0 ≤ 1000 ∧
    create_shares ⟨42, 100, 1, 7, fun _ => 7⟩ "PUB" 0 = [] ∧
    (create_shares ⟨42, 100, 1, 7, fun _ => 7⟩ "PUB" 0).sum = 0 ∧
    uint64_sub 0 1 = 2 ^ 64 - 1 ∧
    (⟨[], []⟩ : redpacket).create ⟨42, 100, 1, 7, fun _ => 7⟩ "PUB" 0
      = ⟨some .out_of_range, ⟨[], []⟩⟩ := by
  decide

theorem create_split_loop_no_fault (total_amount : Int) (shares : List Int) (shares_sum : Int)
    (hs : shares_sum ≠ 0) :
    ∀ (todo i : Nat) (subpackets : List Nat) (share_used_sum : Int),
      i + todo ≤ shares.length →
      ∃ res, create_split_loop total_amount shares shares_sum todo i subpackets share_used_sum
        = .ok res := by
  intro todo
  induction todo with
  | zero => intro i sub used _; exact ⟨_, rfl⟩
  | succ todo ih =>
    intro i sub used hi
    have hilt : i < shares.length := by omega
    simp only [create_split_loop, List.getElem?_eq_getElem hilt, if_neg hs]
    exact ih (i + 1) _ _ (by omega)

/-- With `1 ≤ number ≤ 1000` and no packet of the sender, `create` runs to its
end whatever the attached amount: no read outside `shares`, no division by a
zero `shares_sum`. -/
theorem create_no_fault_of_pos (self : redpacket) (ctx : action_context) (pubkey : String)
    (number : Nat) (hnew : self.find_packet ctx.trx_sender = none)
    (h1 : 1 ≤ number) (h2 : number ≤ 1000) :
    (self.create ctx pubkey number).failed = none := by
  have hlen := create_shares_length ctx pubkey number
  have hsh := create_shares_bounds ctx pubkey number
  have hnn : ∀ x ∈ create_shares ctx pubkey number, 0 ≤ x :=
    fun x hx => by have := (hsh x hx).1; omega
  have h0lt : 0 < (create_shares ctx pubkey number).length := by rw [hlen]; omega
  have hmem0 : (create_shares ctx pubkey number)[0] ∈ create_shares ctx pubkey number :=
    List.getElem_mem h0lt
  have hSpos : (create_shares ctx pubkey number).sum ≠ 0 := by
    have ha := List.single_le_sum hnn _ hmem0
    have hb := (hsh _ hmem0).1
    omega
  have hmod : (number - 1) % 2 ^ 64 = number - 1 := by omega
  obtain ⟨res, hres⟩ := create_split_loop_no_fault ctx.action_asset_amount
    (create_shares ctx pubkey number) _ hSpos (number - 1) 0 [] 0 (by rw [hlen]; omega)
  rw [create_eq_of_pos self ctx pubkey number (by omega), hnew, hmod, hres]
  obtain ⟨subpackets, share_used_sum⟩ := res
  simp only [create_result, if_pos h2]

theorem eraseIdx_eq_nil_iff (l : List Nat) (i : Nat) (hi : i < l.length) :
    l.eraseIdx i = [] ↔ l.length = 1 := by
  rw [← List.length_eq_zero, List.length_eraseIdx, if_pos hi]
  omega

/-- Claim C11: `open` on a packet with exactly one remaining subpacket, when it
runs to its end, leaves neither a packet nor a record for the issuer; on a
packet with two or more subpackets it keeps the packet, with the subpacket at
index `timestamp % size` removed, and the issuer's record.  The primary keys of
the tables are unique, as in every `multi_index` table. -/
theorem open_cascading_removal (self : redpacket) (ctx : action_context)
    (host : host_state) (packet_issuer : Nat) (sig : String) (timestamp : Nat)
    (pkt : packet) (hu : self.keys_unique)
    (hp : self.find_packet packet_issuer = some pkt)
    (hok : (self.open ctx host packet_issuer sig timestamp).failed = none) :
    (pkt.subpackets.length = 1 →
      (self.open ctx host packet_issuer sig timestamp).tables.find_packet packet_issuer = none ∧
      (self.open ctx host packet_issuer sig timestamp).tables.find_record packet_issuer
        = none) ∧
    (2 ≤ pkt.subpackets.length →
      (self.open ctx host packet_issuer sig timestamp).tables.find_packet packet_issuer
        = some { pkt with subpackets :=
            pkt.subpackets.eraseIdx (timestamp % pkt.subpackets.length) } ∧
      (pkt.subpackets.eraseIdx (timestamp % pkt.subpackets.length)).length + 1
        = pkt.subpackets.length ∧
      ∃ r, (self.open ctx host packet_issuer sig timestamp).tables.find_record packet_issuer
        = some r) := by
  obtain ⟨pkt1, amount, hp1, ha, _, _, _, hempty, hleft⟩ :=
    open_lookup self ctx host packet_issuer sig timestamp hu hok
  rw [hp] at hp1
  cases Option.some.inj hp1
  have hlt : timestamp % pkt.subpackets.length < pkt.subpackets.length := by
    by_contra hc
    rw [List.getElem?_eq_none (by omega)] at ha
    cases ha
  have hiff := eraseIdx_eq_nil_iff pkt.subpackets _ hlt
  constructor
  · intro h1
    exact hempty (hiff.2 h1)
  · intro h2
    have hne : pkt.subpackets.eraseIdx (timestamp % pkt.subpackets.length) ≠ [] := by
      intro he
      have := hiff.1 he
      omega
    obtain ⟨hfp, hfr⟩ := hleft hne
    refine ⟨hfp, ?_, _, hfr⟩
    rw [List.length_eraseIdx, if_pos hlt]
    omega

/-- Witness of `open_cascading_removal`: account 4 opens the last subpacket of
issuer 1 (packet and record go), and account 2 opens one of three subpackets
(packet and record stay). -/
theorem open_cascading_removal_witness :
    (((⟨[⟨1, "K", ⟨100, 1⟩, 3, [70]⟩], [⟨1, [⟨2, 10⟩, ⟨3, 20⟩]⟩]⟩ : redpacket).open
        ⟨4, 0, 0, 7, fun _ => 0⟩ ⟨fun _ _ _ => 0, 99, 77, 0⟩ 1 "sig" 5).tables.find_packet 1
      = none ∧
     ((⟨[⟨1, "K", ⟨100, 1⟩, 3, [70]⟩], [⟨1, [⟨2, 10⟩, ⟨3, 20⟩]⟩]⟩ : redpacket).open
        ⟨4, 0, 0, 7, fun _ => 0⟩ ⟨fun _ _ _ => 0, 99, 77, 0⟩ 1 "sig" 5).tables.find_record 1
      = none) ∧
    ((⟨[⟨1, "K", ⟨100, 1⟩, 3, [10, 20, 70]⟩], []⟩ : redpacket).open
        ⟨2, 0, 0, 7, fun _ => 0⟩ ⟨fun _ _ _ => 0, 99, 77, 0⟩ 1 "sig" 4).tables.find_packet 1
      = some ⟨1, "K", ⟨100, 1⟩, 3, [10, 70]⟩ :=
  ⟨(open_cascading_removal ⟨[⟨1, "K", ⟨100, 1⟩, 3, [70]⟩], [⟨1, [⟨2, 10⟩, ⟨3, 20⟩]⟩]⟩
      ⟨4, 0, 0, 7, fun _ => 0⟩ ⟨fun _ _ _ => 0, 99, 77, 0⟩ 1 "sig" 5
      ⟨1, "K", ⟨100, 1⟩, 3, [70]⟩ ⟨by decide, by decide⟩ (by decide) (by decide)).1 (by decide),
   ((open_cascading_removal ⟨[⟨1, "K", ⟨100, 1⟩, 3, [10, 20, 70]⟩], []⟩
      ⟨2, 0, 0, 7, fun _ => 0⟩ ⟨fun _ _ _ => 0, 99, 77, 0⟩ 1 "sig" 4
      ⟨1, "K", ⟨100, 1⟩, 3, [10, 20, 70]⟩ ⟨by decide, by decide⟩ (by decide) (by decide)).2
        (by decide)).1⟩

/-! ### Invariants of the reachable states -/

theorem find_record_create_tables (s : redpacket) (p : packet) (k : Nat) :
    ({ packets := s.packets ++ [p], records := s.records } : redpacket).find_record k
      = s.find_record k := rfl

theorem find_packet_create_tables_some (s : redpacket) (p r : packet) (k : Nat)
    (h : s.find_packet k = some r) :
    ({ packets := s.packets ++ [p], records := s.records } : redpacket).find_packet k
      = some r := by
  unfold redpacket.find_packet at h ⊢
  rw [find_emplace packet.issuer p k s.packets, h]

theorem find_packet_create_tables_none (s : redpacket) (p : packet) (k : Nat)
    (h : s.find_packet k = none) :
    ({ packets := s.packets ++ [p], records := s.records } : redpacket).find_packet k
      = if p.issuer = k then some p else none := by
  unfold redpacket.find_packet at h ⊢
  rw [find_emplace packet.issuer p k s.packets, h]

/-- In every reachable state the accounts listed in a record are pairwise
distinct. -/
theorem reachable_accounts_distinct (guard : action_context → Nat → Prop) (s : redpacket)
    (h : reachable guard s) :
    ∀ k r, s.find_record k = some r → (r.accounts.map account.account_id).Nodup := by
  induction h with
  | init =>
    intro k r hr
    cases hr
  | by_create s ctx pubkey number _ _ hok ih =>
    obtain ⟨_, p, htab, _⟩ := create_lookup s ctx pubkey number hok
    intro k r hr
    rw [htab, find_record_create_tables] at hr
    exact ih k r hr
  | by_open s ctx host packet_issuer sig timestamp hs hok ih =>
    obtain ⟨pkt, amount, _, _, hnot, _, hother, hempty, hleft⟩ :=
      open_lookup s ctx host packet_issuer sig timestamp
        (reachable_keys_unique guard s hs) hok
    intro k r hr
    by_cases hk : k = packet_issuer
    · subst hk
      by_cases he : pkt.subpackets.eraseIdx (timestamp % pkt.subpackets.length) = []
      · rw [(hempty he).2] at hr
        cases hr
      · rw [(hleft he).2] at hr
        cases Option.some.inj hr
        simp only [List.map_append, List.map_cons, List.map_nil]
        cases hr0 : s.find_record k with
        | none => simp
        | some r0 =>
          simp only [Option.map_some', Option.getD_some]
          apply List.Nodup.append (ih k r0 hr0) (List.nodup_singleton _)
          rw [List.disjoint_singleton]
          intro hmem
          obtain ⟨a, ha, hid⟩ := List.mem_map.1 hmem
          exact hnot r0 hr0 a ha hid
    · rw [(hother k hk).2] at hr
      exact ih k r hr
  | by_close s ctx host hs hok ih =>
    obtain ⟨_, hother, _, hnone⟩ := close_lookup s ctx host
      (reachable_keys_unique guard s hs) hok
    intro k r hr
    by_cases hk : k = ctx.trx_sender
    · subst hk
      rw [hnone] at hr
      cases hr
    · rw [(hother k hk).2] at hr
      exact ih k r hr

/-- When the sender is already listed in the record of the issuer, `open` stops
at an assertion before it touches a table. -/
theorem open_fails_when_listed (self : redpacket) (ctx : action_context) (host : host_state)
    (packet_issuer : Nat) (sig : String) (timestamp : Nat) (rec : record)
    (hr : self.find_record packet_issuer = some rec)
    (hin : ctx.trx_sender ∈ rec.accounts.map account.account_id) :
    (self.open ctx host packet_issuer sig timestamp).failed ≠ none ∧
    (self.open ctx host packet_issuer sig timestamp).tables = self ∧
    (self.open ctx host packet_issuer sig timestamp).withdrawals = [] := by
  have hany : rec.accounts.any (fun act => act.account_id == ctx.trx_sender) = true := by
    obtain ⟨a, ha, hid⟩ := List.mem_map.1 hin
    rw [List.any_eq_true]
    exact ⟨a, ha, by simpa using hid⟩
  cases hp : self.find_packet packet_issuer with
  | none => simp [redpacket.open, hp]
  | some pkt =>
    by_cases hsig : host.verify_signature (toString timestamp) sig pkt.pub_key = 0
    · simp [redpacket.open, hp, hsig, hr, hany]
    · simp [redpacket.open, hp, hsig]

/-- Claim C20: in every state reachable from empty tables by calls of `create`,
`open` and `close` that run to their end, the account ids listed in any record
are pairwise distinct; and `open` fails, leaving the tables as they were,
whenever the sender is already listed in the record of the packet it opens. -/
theorem open_once_per_account (guard : action_context → Nat → Prop) :
    (∀ s, reachable guard s →
      ∀ r ∈ s.records, (r.accounts.map account.account_id).Nodup) ∧
    (∀ (self : redpacket) (ctx : action_context) (host : host_state)
      (packet_issuer : Nat) (sig : String) (timestamp : Nat) (rec : record),
      self.find_record packet_issuer = some rec →
      ctx.trx_sender ∈ rec.accounts.map account.account_id →
      (self.open ctx host packet_issuer sig timestamp).failed ≠ none ∧
      (self.open ctx host packet_issuer sig timestamp).tables = self) := by
  constructor
  · intro s hs r hr
    have hu := reachable_keys_unique guard s hs
    exact reachable_accounts_distinct guard s hs r.packet_issuer r
      (find_of_mem_nodup record.packet_issuer s.records r hu.2 hr)
  · intro self ctx host packet_issuer sig timestamp rec hr hin
    have h := open_fails_when_listed self ctx host packet_issuer sig timestamp rec hr hin
    exact ⟨h.1, h.2.1⟩

/-- Witness of `open_once_per_account`: after `create` by issuer 42 and `open`
by account 2 the record lists distinct accounts, and a second `open` by
account 2 fails without touching the tables. -/
theorem open_once_per_account_witness :
    (∀ r ∈ (((⟨[], []⟩ : redpacket).create ⟨42, 100, 1, 7, fun _ => 7⟩ "PUB" 3).tables.open
        ⟨2, 0, 0, 8, fun _ => 0⟩ ⟨fun _ _ _ => 0, 0, 0, 0⟩ 42 "sig" 1).tables.records,
      (r.accounts.map account.account_id).Nodup) ∧
    ((⟨[⟨42, "PUB", ⟨100, 1⟩, 3, [33, 34]⟩], [⟨42, [⟨2, 33⟩]⟩]⟩ : redpacket).open
        ⟨2, 0, 0, 8, fun _ => 0⟩ ⟨fun _ _ _ => 0, 0, 0, 0⟩ 42 "sig" 5).failed ≠ none ∧
    ((⟨[⟨42, "PUB", ⟨100, 1⟩, 3, [33, 34]⟩], [⟨42, [⟨2, 33⟩]⟩]⟩ : redpacket).open
        ⟨2, 0, 0, 8, fun _ => 0⟩ ⟨fun _ _ _ => 0, 0, 0, 0⟩ 42 "sig" 5).tables
      = ⟨[⟨42, "PUB", ⟨100, 1⟩, 3, [33, 34]⟩], [⟨42, [⟨2, 33⟩]⟩]⟩ :=
  ⟨(open_once_per_account (fun _ _ => True)).1 _
      (reachable.by_open _ ⟨2, 0, 0, 8, fun _ => 0⟩ ⟨fun _ _ _ => 0, 0, 0, 0⟩ 42 "sig" 1
        (reachable.by_create _ ⟨42, 100, 1, 7, fun _ => 7⟩ "PUB" 3 reachable.init
          trivial (by decide))
        (by decide)),
   (open_once_per_account (fun _ _ => True)).2
      ⟨[⟨42, "PUB", ⟨100, 1⟩, 3, [33, 34]⟩], [⟨42, [⟨2, 33⟩]⟩]⟩
      ⟨2, 0, 0, 8, fun _ => 0⟩ ⟨fun _ _ _ => 0, 0, 0, 0⟩ 42 "sig" 5 ⟨42, [⟨2, 33⟩]⟩
      (by decide) (by decide)⟩

theorem sum_eraseIdx_add (l : List Nat) :
    ∀ (i a : Nat), l[i]? = some a → (l.eraseIdx i).sum + a = l.sum := by
  induction l with
  | nil => intro i a h; simp at h
  | cons x l ih =>
    intro i a h
    cases i with
    | zero =>
      simp only [List.getElem?_cons_zero, Option.some.injEq] at h
      subst h
      simp only [List.eraseIdx_cons_zero, List.sum_cons]
      omega
    | succ i =>
      simp only [List.getElem?_cons_succ] at h
      have := ih i a h
      simp only [List.eraseIdx_cons_succ, List.sum_cons]
      omega

theorem record_sum_append (packet_issuer : Nat) (found : Option record) (a : account) :
    record_sum (some { packet_issuer := packet_issuer,
                       accounts := (found.map record.accounts).getD [] ++ [a] })
      = record_sum found + a.amount := by
  cases found with
  | none => simp [record_sum]
  | some r => simp [record_sum]

/-- Conservation in the reachable states, in terms of the lookups: remaining
subpackets plus recorded amounts make up the total, and a record has a packet. -/
theorem reachable_conserved (s : redpacket) (h : reachable create_guard s) :
    (∀ k p, s.find_packet k = some p →
      ((p.subpackets.sum : Nat) : Int) + ((record_sum (s.find_record k) : Nat) : Int)
        = p.total_amount.amount) ∧
    (∀ k, s.find_packet k = none → s.find_record k = none) := by
  induction h with
  | init =>
    exact ⟨fun k p hp => (by cases hp), fun k _ => rfl⟩
  | by_create s ctx pubkey number _ hg hok ih =>
    obtain ⟨hnone, _⟩ := create_lookup s ctx pubkey number hok
    obtain ⟨g1, g2, g3, g4⟩ := hg
    obtain ⟨p, hres, hiss, _, htot, _, _, _, hsum⟩ :=
      create_adds_packet s ctx pubkey number hnone g1 g2 g3 g4
    rw [hres]
    constructor
    · intro k q hq
      rw [find_record_create_tables]
      cases hk : s.find_packet k with
      | some r =>
        rw [find_packet_create_tables_some s p r k hk] at hq
        rw [← Option.some.inj hq]
        exact ih.1 k r hk
      | none =>
        rw [find_packet_create_tables_none s p k hk] at hq
        by_cases hpk : p.issuer = k
        · rw [if_pos hpk] at hq
          cases Option.some.inj hq
          rw [ih.2 k hk, htot, hsum]
          simp [record_sum]
        · rw [if_neg hpk] at hq
          cases hq
    · intro k hk
      rw [find_record_create_tables]
      apply ih.2 k
      cases hk0 : s.find_packet k with
      | none => rfl
      | some r =>
        rw [find_packet_create_tables_some s p r k hk0] at hk
        cases hk
  | by_open s ctx host packet_issuer sig timestamp hs hok ih =>
    obtain ⟨pkt, amount, hp, ha, _, _, hother, hempty, hleft⟩ :=
      open_lookup s ctx host packet_issuer sig timestamp
        (reachable_keys_unique create_guard s hs) hok
    constructor
    · intro k q hq
      by_cases hk : k = packet_issuer
      · subst hk
        by_cases he : pkt.subpackets.eraseIdx (timestamp % pkt.subpackets.length) = []
        · rw [(hempty he).1] at hq
          cases hq
        · rw [(hleft he).1] at hq
          cases Option.some.inj hq
          rw [(hleft he).2, record_sum_append]
          have h1 := ih.1 k pkt hp
          have h2 : (((pkt.subpackets.eraseIdx (timestamp % pkt.subpackets.length)).sum : Nat)
              : Int) + ((amount : Nat) : Int) = ((pkt.subpackets.sum : Nat) : Int) := by
            exact_mod_cast sum_eraseIdx_add pkt.subpackets _ amount ha
          simp only
          rw [Nat.cast_add]
          omega
      · rw [(hother k hk).1] at hq
        rw [(hother k hk).2]
        exact ih.1 k q hq
    · intro k hk
      by_cases hk1 : k = packet_issuer
      · subst hk1
        by_cases he : pkt.subpackets.eraseIdx (timestamp % pkt.subpackets.length) = []
        · exact (hempty he).2
        · rw [(hleft he).1] at hk
          cases hk
      · rw [(hother k hk1).1] at hk
        rw [(hother k hk1).2]
        exact ih.2 k hk
  | by_close s ctx host hs hok ih =>
    obtain ⟨_, hother, hnp, hnr⟩ := close_lookup s ctx host
      (reachable_keys_unique create_guard s hs) hok
    constructor
    · intro k q hq
      by_cases hk : k = ctx.trx_sender
      · subst hk
        rw [hnp] at hq
        cases hq
      · rw [(hother k hk).1] at hq
        rw [(hother k hk).2]
        exact ih.1 k q hq
    · intro k hk
      by_cases hk1 : k = ctx.trx_sender
      · subst hk1
        exact hnr
      · rw [(hother k hk1).1] at hk
        rw [(hother k hk1).2]
        exact ih.2 k hk

/-- Claim C15: in every state reachable from empty tables by calls that run to
their end (the `create` calls with `1 ≤ number ≤ 1000` and a non-negative amount
`T` with `T * 255` inside `int64_t`), for every issuer with a packet the sum of
the remaining subpackets plus the sum of the amounts in the issuer's record
(zero without a record) is the packet's total amount, and every record belongs
to an issuer that has a packet. -/
theorem redpacket_conservation (s : redpacket) (h : reachable create_guard s) :
    (∀ k p, s.find_packet k = some p →
      ((p.subpackets.sum : Nat) : Int) + ((record_sum (s.find_record k) : Nat) : Int)
        = p.total_amount.amount) ∧
    (∀ r ∈ s.records, s.find_packet r.packet_issuer ≠ none) := by
  have hc := reachable_conserved s h
  refine ⟨hc.1, ?_⟩
  intro r hr hnone
  have := hc.2 r.packet_issuer hnone
  unfold redpacket.find_record at this
  rw [List.find?_eq_none] at this
  exact this r hr (by simp)

/-- Witness of `redpacket_conservation`: the tables after `create` of 100 units
in 3 shares by issuer 42 and one `open` by account 2. -/
theorem redpacket_conservation_witness :
    (∀ k p, (((⟨[], []⟩ : redpacket).create ⟨42, 100, 1, 7, fun _ => 7⟩ "PUB" 3).tables.open
          ⟨2, 0, 0, 8, fun _ => 0⟩ ⟨fun _ _ _ => 0, 0, 0, 0⟩ 42 "sig" 1).tables.find_packet k
        = some p →
      ((p.subpackets.sum : Nat) : Int) +
        ((record_sum ((((⟨[], []⟩ : redpacket).create ⟨42, 100, 1, 7, fun _ => 7⟩ "PUB" 3).tables.open
          ⟨2, 0, 0, 8, fun _ => 0⟩ ⟨fun _ _ _ => 0, 0, 0, 0⟩ 42 "sig" 1).tables.find_record k)
          : Nat) : Int)
        = p.total_amount.amount) ∧
    (∀ r ∈ (((⟨[], []⟩ : redpacket).create ⟨42, 100, 1, 7, fun _ => 7⟩ "PUB" 3).tables.open
          ⟨2, 0, 0, 8, fun _ => 0⟩ ⟨fun _ _ _ => 0, 0, 0, 0⟩ 42 "sig" 1).tables.records,
      (((⟨[], []⟩ : redpacket).create ⟨42, 100, 1, 7, fun _ => 7⟩ "PUB" 3).tables.open
          ⟨2, 0, 0, 8, fun _ => 0⟩ ⟨fun _ _ _ => 0, 0, 0, 0⟩ 42 "sig" 1).tables.find_packet
        r.packet_issuer ≠ none) :=
  redpacket_conservation _
    (reachable.by_open _ ⟨2, 0, 0, 8, fun _ => 0⟩ ⟨fun _ _ _ => 0, 0, 0, 0⟩ 42 "sig" 1
      (reachable.by_create _ ⟨42, 100, 1, 7, fun _ => 7⟩ "PUB" 3 reachable.init
        ⟨by decide, by decide, by decide, by decide⟩ (by decide))
      (by decide))

/-! ## Theorems: undo sessions -/

theorem object_store_ext {V : Type} (a b : object_store V)
    (h1 : a.objects = b.objects) (h2 : a.next_id = b.next_id) : a = b := by
  cases a; cases b
  simp only at h1 h2
  subst h1; subst h2
  rfl

theorem undo_log_append {V : Type} (log : List (delta V)) (d : delta V) (s : object_store V) :
    undo_log (log ++ [d]) s = undo_log log (undo_delta d s) := by
  induction log with
  | nil => rfl
  | cons e rest ih =>
    show undo_delta e (undo_log (rest ++ [d]) s) = undo_delta e (undo_log rest (undo_delta d s))
    rw [ih]

theorem undo_delta_update_same {V : Type} (d : delta V) (s : object_store V) (x : Option V) :
    undo_delta d { objects := Function.update s.objects d.id x, next_id := s.next_id }
      = undo_delta d s := by
  cases d <;> simp [undo_delta, delta.id, Function.update_idem]

theorem undo_delta_update_other {V : Type} (d : delta V) (s : object_store V)
    (id : Nat × Nat) (x : Option V) (h : d.id ≠ id) :
    undo_delta d { objects := Function.update s.objects id x, next_id := s.next_id }
      = { objects := Function.update (undo_delta d s).objects id x
          next_id := (undo_delta d s).next_id } := by
  cases d <;>
    simp only [undo_delta, delta.id] at h ⊢ <;>
    rw [Function.update_comm h]

/-- A change of an object that the log has a record for is lost in the replay;
a change of another object commutes with it. -/
theorem undo_log_update {V : Type} (log : List (delta V)) (s : object_store V)
    (id : Nat × Nat) (x : Option V) :
    undo_log log { objects := Function.update s.objects id x, next_id := s.next_id }
      = if log.any (fun d => d.id == id) then undo_log log s
        else { objects := Function.update (undo_log log s).objects id x
               next_id := (undo_log log s).next_id } := by
  induction log with
  | nil => simp [undo_log]
  | cons d rest ih =>
    simp only [undo_log, ih, List.any_cons]
    by_cases hrest : rest.any (fun d => d.id == id) = true
    · simp [hrest]
    · by_cases hd : d.id = id
      · subst hd
        simp [hrest, undo_delta_update_same]
      · have hb : (d.id == id) = false := by simpa using hd
        simp [hrest, hb, undo_delta_update_other d _ id x hd]

theorem lt_next_id_of_some {V : Type} (s : object_store V) (hd : s.dense) (id : Nat × Nat)
    (v : V) (h : s.objects id = some v) : id.2 < s.next_id id.1 := by
  by_contra hc
  have := hd id.1 id.2 (by omega)
  rw [h] at this
  cases this

theorem not_touched_of_ge {V : Type} (st : session V) (id : Nat × Nat)
    (hlog : ∀ d ∈ st.log, d.id.2 < st.store.next_id d.id.1)
    (h : st.store.next_id id.1 ≤ id.2) : st.touched id = false := by
  unfold session.touched
  rw [Bool.eq_false_iff]
  intro hany
  rw [List.any_eq_true] at hany
  obtain ⟨d, hd, hid⟩ := hany
  have hid1 : d.id = id := by simpa using hid
  have := hlog d hd
  rw [hid1] at this
  omega

theorem session_inv_modify {V : Type} (s0 : object_store V) (st : session V)
    (id : Nat × Nat) (v : V) (x : Option V) (d : delta V)
    (h : session_inv s0 st) (hv : st.store.objects id = some v)
    (hd : d.id = id)
    (hundo : undo_delta d
      { objects := Function.update st.store.objects id x, next_id := st.store.next_id }
      = st.store)
    (hx : ∀ instance_id, st.store.next_id id.1 ≤ instance_id →
      Function.update st.store.objects id x (id.1, instance_id) = none) :
    session_inv s0
      { store := { objects := Function.update st.store.objects id x
                   next_id := st.store.next_id }
        log := st.record id d } := by
  obtain ⟨h1, h2, h3⟩ := h
  have hlt := lt_next_id_of_some st.store h2 id v hv
  refine ⟨?_, ?_, ?_⟩
  · show undo_log (st.record id d) _ = s0
    unfold session.record
    by_cases ht : st.touched id = true
    · rw [if_pos ht, undo_log_update]
      unfold session.touched at ht
      rw [if_pos ht, h1]
    · rw [if_neg ht, undo_log_append, hundo, h1]
  · intro t i hi
    show Function.update st.store.objects id x (t, i) = none
    by_cases he : (t, i) = id
    · have ht : t = id.1 := by rw [← he]
      subst ht
      exact hx i hi
    · rw [Function.update_noteq he]
      exact h2 t i hi
  · intro e he
    show e.id.2 < st.store.next_id e.id.1
    have he' : e ∈ st.record id d := he
    unfold session.record at he'
    by_cases ht : st.touched id = true
    · rw [if_pos ht] at he'
      exact h3 e he'
    · rw [if_neg ht] at he'
      rcases List.mem_append.1 he' with hm | hm
      · exact h3 e hm
      · rw [List.mem_singleton] at hm
        rw [hm, hd]
        exact hlt

theorem session_inv_apply {V : Type} (admits : object_store V → V → Bool)
    (s0 : object_store V) (st : session V) (op : store_op V) (h : session_inv s0 st) :
    session_inv s0 (st.apply admits op) := by
  cases op with
  | insert type_tag constructor_fn =>
    simp only [session.apply]
    by_cases ha : admits st.store (constructor_fn (type_tag, st.store.next_id type_tag)) = true
    · rw [if_pos ha]
      obtain ⟨h1, h2, h3⟩ := h
      have hnt := not_touched_of_ge st (type_tag, st.store.next_id type_tag) h3 (le_refl _)
      have hnone := h2 type_tag (st.store.next_id type_tag) (le_refl _)
      refine ⟨?_, ?_, ?_⟩
      · show undo_log (st.record _ _) _ = s0
        unfold session.record
        rw [hnt]
        simp only [Bool.false_eq_true, if_false]
        rw [undo_log_append]
        have : undo_delta (delta.created (type_tag, st.store.next_id type_tag))
            { objects := Function.update st.store.objects (type_tag, st.store.next_id type_tag)
                (some (constructor_fn (type_tag, st.store.next_id type_tag)))
              next_id := Function.update st.store.next_id type_tag
                (st.store.next_id type_tag + 1) } = st.store := by
          apply object_store_ext
          · show Function.update (Function.update st.store.objects _ _) _ none = _
            rw [Function.update_idem, ← hnone, Function.update_eq_self]
          · show Function.update (Function.update st.store.next_id _ _) _ _ = _
            rw [Function.update_idem, Function.update_eq_self]
        rw [this, h1]
      · intro t i hi
        show Function.update st.store.objects _ _ (t, i) = none
        have hi' : Function.update st.store.next_id type_tag (st.store.next_id type_tag + 1) t
            ≤ i := hi
        by_cases ht : t = type_tag
        · subst ht
          rw [Function.update_same] at hi'
          rw [Function.update_noteq (by
            intro he
            have := congrArg Prod.snd he
            simp only at this
            omega)]
          exact h2 t i (by omega)
        · rw [Function.update_noteq ht] at hi'
          rw [Function.update_noteq (by
            intro he
            exact ht (congrArg Prod.fst he))]
          exact h2 t i hi'
      · intro e he
        show e.id.2 < Function.update st.store.next_id type_tag (st.store.next_id type_tag + 1)
          e.id.1
        have he' : e ∈ st.record (type_tag, st.store.next_id type_tag)
            (delta.created (type_tag, st.store.next_id type_tag)) := he
        unfold session.record at he'
        rw [hnt] at he'
        simp only [Bool.false_eq_true, if_false] at he'
        have hold : ∀ e ∈ st.log, e.id.2 <
            Function.update st.store.next_id type_tag (st.store.next_id type_tag + 1) e.id.1 := by
          intro e hm
          have := h3 e hm
          by_cases ht : e.id.1 = type_tag
          · rw [ht, Function.update_same]
            rw [ht] at this
            omega
          · rw [Function.update_noteq ht]
            exact this
        rcases List.mem_append.1 he' with hm | hm
        · exact hold e hm
        · rw [List.mem_singleton] at hm
          rw [hm]
          show st.store.next_id type_tag <
            Function.update st.store.next_id type_tag (st.store.next_id type_tag + 1) type_tag
          rw [Function.update_same]
          omega
    · rw [if_neg ha]
      exact h
  | modify id mutator_fn =>
    cases hv : st.store.objects id with
    | none =>
      simp only [session.apply, hv]
      exact h
    | some v =>
      simp only [session.apply, hv]
      have hlt := lt_next_id_of_some st.store h.2.1 id v hv
      apply session_inv_modify s0 st id v (some (mutator_fn v)) (delta.modified id v) h hv rfl
      · apply object_store_ext
        · show Function.update (Function.update st.store.objects id _) id (some v) = _
          rw [Function.update_idem, ← hv, Function.update_eq_self]
        · rfl
      · intro i hi
        rw [Function.update_noteq (by
          intro he
          have := congrArg Prod.snd he
          simp only at this
          omega)]
        exact h.2.1 id.1 i hi
  | erase id =>
    cases hv : st.store.objects id with
    | none =>
      simp only [session.apply, hv]
      exact h
    | some v =>
      simp only [session.apply, hv]
      have hlt := lt_next_id_of_some st.store h.2.1 id v hv
      apply session_inv_modify s0 st id v none (delta.removed id v) h hv rfl
      · apply object_store_ext
        · show Function.update (Function.update st.store.objects id _) id (some v) = _
          rw [Function.update_idem, ← hv, Function.update_eq_self]
        · rfl
      · intro i hi
        rw [Function.update_noteq (by
          intro he
          have := congrArg Prod.snd he
          simp only at this
          omega)]
        exact h.2.1 id.1 i hi

/-- Claim C13: from any store state `s0` with dense instance ids, opening a
session, performing any finite sequence of insert, modify and erase operations
(also refused ones) and calling `undo` gives a store equal to `s0`: the same
objects with the same values and the same next instance ids. -/
theorem undo_restores_store {V : Type} (admits : object_store V → V → Bool)
    (s0 : object_store V) (h0 : s0.dense) (ops : List (store_op V)) :
    (ops.foldl (fun st op => st.apply admits op) (begin_session s0)).undo = s0 := by
  have hinv : ∀ (ops : List (store_op V)) (st : session V), session_inv s0 st →
      session_inv s0 (ops.foldl (fun st op => st.apply admits op) st) := by
    intro ops
    induction ops with
    | nil => intro st h; exact h
    | cons op rest ih =>
      intro st h
      exact ih _ (session_inv_apply admits s0 st op h)
  exact (hinv ops (begin_session s0) ⟨rfl, h0, fun d hd => by cases hd⟩).1

/-- Witness of `undo_restores_store`: on a store holding the object `(0, 0)`
with value 10, a session inserts two objects, modifies the old and a new one,
erases the old one, tries to modify an absent one, and is undone. -/
theorem undo_restores_store_witness :
    (([store_op.insert 0 (fun _ => 5), store_op.modify (0, 0) (fun v => v + 1),
        store_op.insert 3 (fun id => id.2), store_op.modify (0, 1) (fun v => 2 * v),
        store_op.erase (0, 0), store_op.modify (7, 7) (fun v => v + 1)] :
        List (store_op Nat)).foldl
      (fun st op => st.apply (fun _ _ => true) op)
      (begin_session
        { objects := fun id => if id = (0, 0) then some 10 else none
          next_id := fun type_tag => if type_tag = 0 then 1 else 0 })).undo
      = { objects := fun id => if id = (0, 0) then some 10 else none
          next_id := fun type_tag => if type_tag = 0 then 1 else 0 } :=
  undo_restores_store (fun _ _ => true)
    { objects := fun id => if id = (0, 0) then some 10 else none
      next_id := fun type_tag => if type_tag = 0 then 1 else 0 }
    (by
      intro type_tag instance_id h
      by_cases ht : type_tag = 0
      · subst ht
        have h1 : 1 ≤ instance_id := h
        have hne : ((0, instance_id) : Nat × Nat) ≠ (0, 0) := by
          intro he
          have := congrArg Prod.snd he
          simp only at this
          omega
        show (if ((0, instance_id) : Nat × Nat) = (0, 0) then some 10 else none) = none
        rw [if_neg hne]
      · have hne : ((type_tag, instance_id) : Nat × Nat) ≠ (0, 0) := by
          intro he
          exact ht (congrArg Prod.fst he)
        show (if ((type_tag, instance_id) : Nat × Nat) = (0, 0) then some 10 else none) = none
        rw [if_neg hne])
    _

end GxbCore
